import Mathlib

set_option maxHeartbeats 1000000
set_option maxRecDepth 100000

/-!
Verification of the flat-file record store of the virtual-museum dashboard
applications.  The development embeds, as executable Lean functions, the
user-account and booking persistence code of the two application variants:
the pipe-delimited variant (namespace P, from p.py) and the comma/JSON
variant (namespace A, from app.py).  Python strings are modelled as lists
of characters, file contents as optional character lists (none stands for
a file that does not exist on disk).
-/

/-! ## Python string primitives -/

/-- Characters stripped by the Python str.strip method with no argument:
the characters for which str.isspace returns true. -/
def isPySpace (c : Char) : Bool :=
  c = ' ' || c = '\t' || c = '\n' || c = '\x0b' || c = '\x0c' || c = '\r' ||
  c = '\x1c' || c = '\x1d' || c = '\x1e' || c = '\x1f' || c = '\x85' ||
  c = '\xa0' || c = ' ' ||
  (' ' ≤ c && c ≤ ' ') ||
  c = ' ' || c = ' ' || c = ' ' || c = ' ' || c = '　'

/-- Python str.strip with no argument: drop whitespace at both ends. -/
def pyStrip (s : List Char) : List Char :=
  ((s.dropWhile isPySpace).reverse.dropWhile isPySpace).reverse

/-- Python str.split with a one-character separator and no maxsplit:
splitOnChar sep s cuts s at every occurrence of sep; the empty string
splits to a single empty piece, matching the Python behaviour. -/
def splitOnChar (sep : Char) : List Char → List (List Char)
  | [] => [[]]
  | c :: cs =>
    if c = sep then [] :: splitOnChar sep cs
    else (splitOnChar sep cs).modifyHead (c :: ·)

/-- Universal-newlines translation performed by Python when reading a text
file: a carriage return followed by a line feed, or a lone carriage
return, both read back as a single line feed. -/
def univNewlines : List Char → List Char
  | [] => []
  | [c] => if c = '\r' then ['\n'] else [c]
  | c :: d :: cs =>
    if c = '\r' then
      if d = '\n' then '\n' :: univNewlines cs
      else '\n' :: univNewlines (d :: cs)
    else c :: univNewlines (d :: cs)

/-- The successive lines yielded by iterating over an open text file,
with the line terminators removed by the subsequent strip calls; the
final piece is empty when the content ends with a line feed, and such an
empty piece is skipped by every loader below. -/
def linesOf (content : List Char) : List (List Char) :=
  splitOnChar '\n' (univNewlines content)

/-! ## Python dict primitives (string keys, insertion ordered) -/

/-- Assignment d[k] = v on a Python dict represented as an insertion
ordered association list: an existing binding of k is overwritten in
place, a new key is appended at the end. -/
def dictInsert {α : Type} : List (List Char × α) → List Char → α → List (List Char × α)
  | [], k, v => [(k, v)]
  | (k1, v1) :: rest, k, v =>
    if k1 = k then (k, v) :: rest else (k1, v1) :: dictInsert rest k v

/-- Lookup in a Python dict represented as an association list. -/
def dictFind? {α : Type} : List (List Char × α) → List Char → Option α
  | [], _ => none
  | (k1, v1) :: rest, k => if k1 = k then some v1 else dictFind? rest k

/-! ## File model -/

/-- The bytes a read of the file observes: a missing file has no content. -/
def contentOf (file : Option (List Char)) : List Char := file.getD []

/-- Opening a file in append mode and writing t: the file is created when
absent, and t is placed after the existing content. -/
def appendText (file : Option (List Char)) (t : List Char) : Option (List Char) :=
  some (contentOf file ++ t)

/-! ## UTF-8 encoding (Python str.encode) -/

/-- UTF-8 encoding of one character, as a list of byte values. -/
def utf8EncodeChar (c : Char) : List Nat :=
  let n := c.toNat
  if n < 0x80 then [n]
  else if n < 0x800 then [0xc0 + n / 0x40, 0x80 + n % 0x40]
  else if n < 0x10000 then
    [0xe0 + n / 0x1000, 0x80 + n / 0x40 % 0x40, 0x80 + n % 0x40]
  else
    [0xf0 + n / 0x40000, 0x80 + n / 0x1000 % 0x40,
     0x80 + n / 0x40 % 0x40, 0x80 + n % 0x40]

/-- Python str.encode with the default UTF-8 codec. -/
def utf8Encode (s : List Char) : List Nat :=
  (s.map utf8EncodeChar).flatten

/-! ## SHA-256 (hashlib.sha256, operating on byte lists, words as Nat mod 2^32) -/

/-- Reduction modulo 2^32, the word size of SHA-256. -/
def w32 (n : Nat) : Nat := n % 4294967296

/-- Right rotation of a 32-bit word. -/
def rotr32 (n x : Nat) : Nat := w32 ((x >>> n) ||| (x <<< (32 - n)))

def sha256K : List Nat :=
  [1116352408, 1899447441, 3049323471, 3921009573,
   961987163, 1508970993, 2453635748, 2870763221,
   3624381080, 310598401, 607225278, 1426881987,
   1925078388, 2162078206, 2614888103, 3248222580,
   3835390401, 4022224774, 264347078, 604807628,
   770255983, 1249150122, 1555081692, 1996064986,
   2554220882, 2821834349, 2952996808, 3210313671,
   3336571891, 3584528711, 113926993, 338241895,
   666307205, 773529912, 1294757372, 1396182291,
   1695183700, 1986661051, 2177026350, 2456956037,
   2730485921, 2820302411, 3259730800, 3345764771,
   3516065817, 3600352804, 4094571909, 275423344,
   430227734, 506948616, 659060556, 883997877,
   958139571, 1322822218, 1537002063, 1747873779,
   1955562222, 2024104815, 2227730452, 2361852424,
   2428436474, 2756734187, 3204031479, 3329325298]

/-- Big-endian byte expansion of a number into a fixed number of bytes. -/
def beBytes : Nat → Nat → List Nat
  | 0, _ => []
  | k + 1, n => beBytes k (n / 256) ++ [n % 256]

/-- SHA-256 message padding: a 0x80 byte, zero bytes up to 56 mod 64, and
the bit length in 8 big-endian bytes. -/
def sha256Pad (msg : List Nat) : List Nat :=
  let len := msg.length
  let zeros := (64 - (len + 9) % 64) % 64
  msg ++ [0x80] ++ List.replicate zeros 0 ++ beBytes 8 (8 * len)

/-- Group bytes into 32-bit words, big endian. -/
def toWordsBE : List Nat → List Nat
  | b0 :: b1 :: b2 :: b3 :: rest =>
    (b0 * 0x1000000 + b1 * 0x10000 + b2 * 0x100 + b3) :: toWordsBE rest
  | _ => []

/-- Group a word list into blocks of sixteen, fuel-driven so that the
definition is primitive recursive and evaluates inside the kernel. -/
def chunk16F : Nat → List Nat → List (List Nat)
  | 0, _ => []
  | _, [] => []
  | fuel + 1, ws => ws.take 16 :: chunk16F fuel (ws.drop 16)

def chunk16 (ws : List Nat) : List (List Nat) := chunk16F ws.length ws

def smallSigma0 (x : Nat) : Nat := rotr32 7 x ^^^ rotr32 18 x ^^^ (x >>> 3)
def smallSigma1 (x : Nat) : Nat := rotr32 17 x ^^^ rotr32 19 x ^^^ (x >>> 10)
def bigSigma0 (x : Nat) : Nat := rotr32 2 x ^^^ rotr32 13 x ^^^ rotr32 22 x
def bigSigma1 (x : Nat) : Nat := rotr32 6 x ^^^ rotr32 11 x ^^^ rotr32 25 x
def chF (x y z : Nat) : Nat := (x &&& y) ^^^ ((0xffffffff ^^^ x) &&& z)
def majF (x y z : Nat) : Nat := (x &&& y) ^^^ (x &&& z) ^^^ (y &&& z)

/-- One step of the message-schedule extension, over the reversed prefix
of the schedule (the head is the most recently produced word). -/
def scheduleStep (wrev : List Nat) : Nat :=
  w32 (smallSigma1 (wrev.getD 1 0) + wrev.getD 6 0 +
       smallSigma0 (wrev.getD 14 0) + wrev.getD 15 0)

def buildSchedule : Nat → List Nat → List Nat
  | 0, wrev => wrev
  | k + 1, wrev => buildSchedule k (scheduleStep wrev :: wrev)

/-- The 64-word message schedule of one block. -/
def sha256Schedule (block : List Nat) : List Nat :=
  (buildSchedule 48 block.reverse).reverse

/-- The eight 32-bit working variables of the compression function. -/
structure H8 where
  a : Nat
  b : Nat
  c : Nat
  d : Nat
  e : Nat
  f : Nat
  g : Nat
  h : Nat
deriving DecidableEq, Repr

def compressRound (st : H8) (kw : Nat × Nat) : H8 :=
  let t1 := w32 (st.h + bigSigma1 st.e + chF st.e st.f st.g + kw.1 + kw.2)
  let t2 := w32 (bigSigma0 st.a + majF st.a st.b st.c)
  ⟨w32 (t1 + t2), st.a, st.b, st.c, w32 (st.d + t1), st.e, st.f, st.g⟩

def sha256Block (st : H8) (block : List Nat) : H8 :=
  let r := (sha256K.zip (sha256Schedule block)).foldl compressRound st
  ⟨w32 (st.a + r.a), w32 (st.b + r.b), w32 (st.c + r.c), w32 (st.d + r.d),
   w32 (st.e + r.e), w32 (st.f + r.f), w32 (st.g + r.g), w32 (st.h + r.h)⟩

def sha256Init : H8 :=
  ⟨0x6a09e667, 0xbb67ae85, 0x3c6ef372, 0xa54ff53a,
   0x510e527f, 0x9b05688c, 0x1f83d9ab, 0x5be0cd19⟩

/-- The eight words of the SHA-256 digest of a byte list. -/
def sha256Words (msg : List Nat) : List Nat :=
  let fin := (chunk16 (toWordsBE (sha256Pad msg))).foldl sha256Block sha256Init
  [fin.a, fin.b, fin.c, fin.d, fin.e, fin.f, fin.g, fin.h]

/-- Lowercase hexadecimal digit. -/
def hexDigit (n : Nat) : Char :=
  if n < 10 then Char.ofNat (48 + n) else Char.ofNat (87 + n)

/-- Eight-hex-digit rendering of one 32-bit word. -/
def word8Hex (w : Nat) : List Char :=
  [hexDigit (w >>> 28 % 16), hexDigit (w >>> 24 % 16),
   hexDigit (w >>> 20 % 16), hexDigit (w >>> 16 % 16),
   hexDigit (w >>> 12 % 16), hexDigit (w >>> 8 % 16),
   hexDigit (w >>> 4 % 16), hexDigit (w % 16)]

/-- hashlib.sha256 followed by hexdigest: the 64-character lowercase
hexadecimal digest of a byte list. -/
def sha256Hex (msg : List Nat) : List Char :=
  ((sha256Words msg).map word8Hex).flatten

/-- hash_password from both application variants:
sha256 of the UTF-8 encoded password, rendered as a hex digest. -/
def hash_password (password : List Char) : List Char :=
  sha256Hex (utf8Encode password)


/-! ## Booking identifier generation

Both variants build the identifier as the string BK followed by the
current time rendered through strftime with format %Y%m%d%H%M%S. -/

/-- A calendar timestamp at second resolution, the data observed by
datetime.now through the %Y%m%d%H%M%S format. -/
structure DT where
  year : Nat
  month : Nat
  day : Nat
  hour : Nat
  minute : Nat
  second : Nat
deriving DecidableEq, Repr

/-- The ranges datetime.now can produce, restricted to four-digit years so
that the %Y field has a fixed width. -/
def validDT (t : DT) : Prop :=
  1000 ≤ t.year ∧ t.year ≤ 9999 ∧ 1 ≤ t.month ∧ t.month ≤ 12 ∧
  1 ≤ t.day ∧ t.day ≤ 31 ∧ t.hour ≤ 23 ∧ t.minute ≤ 59 ∧ t.second ≤ 59

instance (t : DT) : Decidable (validDT t) := by
  unfold validDT; infer_instance

/-- A decimal digit character. -/
def digitChar (n : Nat) : Char := Char.ofNat (48 + n % 10)

/-- Two-digit zero-padded decimal rendering, as produced by the strftime
fields %m, %d, %H, %M and %S for in-range values. -/
def pad2 (n : Nat) : List Char := [digitChar (n / 10), digitChar n]

/-- Four-digit zero-padded decimal rendering, as produced by %Y for
four-digit years. -/
def pad4 (n : Nat) : List Char :=
  [digitChar (n / 1000), digitChar (n / 100), digitChar (n / 10), digitChar n]

/-- strftime with format %Y%m%d%H%M%S. -/
def strftimeYmdHMS (t : DT) : List Char :=
  pad4 t.year ++ pad2 t.month ++ pad2 t.day ++
  pad2 t.hour ++ pad2 t.minute ++ pad2 t.second

/-- The booking identifier generated on booking confirmation in both
variants. -/
def booking_id (t : DT) : List Char := 'B' :: 'K' :: strftimeYmdHMS t

/-! ## The pipe-delimited variant (p.py) -/

namespace P

/-- The per-user record load_users builds from one well-formed line. -/
structure UserRec where
  password : List Char
  email : List Char
  timestamp : Option (List Char)
deriving DecidableEq, Repr

/-- How the load_users loop treats one line of users.txt: blank lines are
skipped silently, lines with fewer than three pipe-separated fields are
reported and skipped, and any other line yields a user record whose
timestamp is the fourth field when present. -/
inductive ULine where
  | skip
  | malformed (stripped : List Char)
  | ok (username : List Char) (rec : UserRec)
deriving DecidableEq, Repr

def classifyUserLine (line : List Char) : ULine :=
  let s := pyStrip line
  if s = [] then .skip
  else
    match splitOnChar '|' s with
    | u :: p :: e :: rest => .ok u ⟨p, e, rest.head?⟩
    | _ => .malformed s

/-- load_users from p.py: the insertion-ordered user dict together with
the list of stripped lines reported by the malformed-line print call. -/
def load_users (file : Option (List Char)) :
    List (List Char × UserRec) × List (List Char) :=
  match file with
  | none => ([], [])
  | some content =>
    (linesOf content).foldl
      (fun acc line =>
        match classifyUserLine line with
        | .skip => acc
        | .malformed s => (acc.1, acc.2 ++ [s])
        | .ok u r => (dictInsert acc.1 u r, acc.2))
      ([], [])

/-- The sequence of user records the file holds, one per well-formed
line in file order; this is the observation the uniqueness claims are
about, before the dict collapses duplicate usernames. -/
def userRecords (file : Option (List Char)) : List (List Char × UserRec) :=
  (linesOf (contentOf file)).filterMap fun line =>
    match classifyUserLine line with
    | .ok u r => some (u, r)
    | _ => none

/-- save_user from p.py: append one pipe-joined line holding the
username, the password hash, the email and the timestamp string. -/
def save_user (file : Option (List Char))
    (username password email ts : List Char) : Option (List Char) :=
  appendText file
    (username ++ '|' :: hash_password password ++ '|' :: email ++ '|' :: ts ++ ['\n'])

/-- The credential check of the p.py login branch:
username in users and users[username] password equals the hash of the
submitted password. -/
def login_check (users : List (List Char × UserRec))
    (username password : List Char) : Bool :=
  match dictFind? users username with
  | none => false
  | some r => r.password = hash_password password

/-- The p.py Register branch: reject on a missing field, an existing
username, a confirmation mismatch or a short password, in that order;
otherwise append the new account.  Returns the resulting file and
whether a record was appended. -/
def register (file : Option (List Char))
    (username email password confirm ts : List Char) :
    Option (List Char) × Bool :=
  if username = [] || email = [] || password = [] then (file, false)
  else if (dictFind? (load_users file).1 username).isSome then (file, false)
  else if password ≠ confirm then (file, false)
  else if password.length < 6 then (file, false)
  else (save_user file username password email ts, true)

/-- The nine positional fields of one line of bookings.txt. -/
structure Booking where
  booking_id : List Char
  username : List Char
  museum : List Char
  date : List Char
  time : List Char
  people : List Char
  tour_type : List Char
  booking_date : List Char
  status : List Char
deriving DecidableEq, Repr

/-- The pipe-joined encoding save_booking writes, without the final line
feed. -/
def encodeBooking (b : Booking) : List Char :=
  b.booking_id ++ '|' :: b.username ++ '|' :: b.museum ++ '|' :: b.date ++
  '|' :: b.time ++ '|' :: b.people ++ '|' :: b.tour_type ++
  '|' :: b.booking_date ++ '|' :: b.status

/-- save_booking from p.py. -/
def save_booking (file : Option (List Char)) (b : Booking) : Option (List Char) :=
  appendText file (encodeBooking b ++ ['\n'])

/-- How the load_bookings loop treats one line: blank lines and lines
that do not split into exactly nine fields yield nothing, silently. -/
def parseBookingLine (line : List Char) : Option Booking :=
  let s := pyStrip line
  if s = [] then none
  else
    match splitOnChar '|' s with
    | [f1, f2, f3, f4, f5, f6, f7, f8, f9] =>
      some ⟨f1, f2, f3, f4, f5, f6, f7, f8, f9⟩
    | _ => none

/-- load_bookings from p.py. -/
def load_bookings (file : Option (List Char)) : List Booking :=
  match file with
  | none => []
  | some content => (linesOf content).filterMap parseBookingLine

/-- The lines printed while load_bookings runs: its loop body contains no
print call, so every line contributes nothing. -/
def load_bookings_prints (file : Option (List Char)) : List (List Char) :=
  (linesOf (contentOf file)).foldl (fun acc _line => acc) []

/-- The My Bookings filter of p.py: the bookings whose username field
equals the session user, kept in load order. -/
def user_bookings (username : List Char) (file : Option (List Char)) : List Booking :=
  (load_bookings file).filter fun b => b.username = username

/-- Saving a sequence of bookings in order. -/
def save_all (file : Option (List Char)) (bs : List Booking) : Option (List Char) :=
  bs.foldl save_booking file

end P

/-! ## Wellformedness vocabulary for the stores -/

/-- Contents a sequence of appends can produce: no raw carriage return
(every write ends in a line feed and the data constraints below exclude
carriage returns inside fields), and either empty or ending in the line
feed of the last write. -/
def StoreOk (c : List Char) : Prop :=
  (∀ x ∈ c, ¬x = '\r') ∧ (c = [] ∨ c.getLast? = some '\n')

instance (c : List Char) : Decidable (StoreOk c) := by
  unfold StoreOk; infer_instance

/-- A piece of text free of line terminators, so that it occupies exactly
one line of a store file. -/
def NoNLCR (l : List Char) : Prop :=
  ∀ x ∈ l, ¬x = '\n' ∧ ¬x = '\r'

instance (l : List Char) : Decidable (NoNLCR l) := by
  unfold NoNLCR; infer_instance

/-- A field value the pipe codec of p.py can carry: no delimiter and no
line terminator. -/
def CleanField (f : List Char) : Prop :=
  ∀ x ∈ f, ¬x = '|' ∧ ¬x = '\n' ∧ ¬x = '\r'

instance (f : List Char) : Decidable (CleanField f) := by
  unfold CleanField; infer_instance

namespace P

/-- A booking the pipe codec stores faithfully: every field clean, and
additionally no leading whitespace on the first field and no trailing
whitespace on the last one, which the strip call on each read line would
otherwise remove. -/
def CleanBooking (b : Booking) : Prop :=
  CleanField b.booking_id ∧ CleanField b.username ∧ CleanField b.museum ∧
  CleanField b.date ∧ CleanField b.time ∧ CleanField b.people ∧
  CleanField b.tour_type ∧ CleanField b.booking_date ∧ CleanField b.status ∧
  (∀ x, b.booking_id.head? = some x → isPySpace x = false) ∧
  (∀ x, b.status.getLast? = some x → isPySpace x = false)

instance (b : Booking) : Decidable (CleanBooking b) := by
  unfold CleanBooking; infer_instance

/-- Registration inputs that cannot forge or damage other lines of the
accounts file: the username carries no delimiter, no line terminator and
no leading whitespace, and the email and timestamp carry no line
terminator. -/
def CleanReg (username email ts : List Char) : Prop :=
  CleanField username ∧ (∀ x, username.head? = some x → isPySpace x = false) ∧
  NoNLCR email ∧ NoNLCR ts ∧
  (∀ x, ts.getLast? = some x → isPySpace x = false)

instance (u e t : List Char) : Decidable (CleanReg u e t) := by
  unfold CleanReg; infer_instance

/-- The accounts-file states reachable, from the missing file, through
the Register branch alone with well-behaved inputs. -/
inductive Reached : Option (List Char) → Prop
  | init : Reached none
  | step (file : Option (List Char)) (username email password confirm ts : List Char) :
      Reached file → CleanReg username email ts →
      Reached (register file username email password confirm ts).1

end P

/-! ## The state-passing view of one session

Each read helper opens the store file for reading only; the pair it
returns is the observation together with the store state after the call,
which the read leaves untouched. -/

/-- The two files backing the store. -/
structure Store where
  usersFile : Option (List Char)
  bookingsFile : Option (List Char)

namespace P

/-- Running load_bookings against the store: the file is opened for
reading only, so the state after the call is the state before it. -/
def readBookings (s : Store) : List Booking × Store :=
  (load_bookings s.bookingsFile, s)

/-- Running load_users against the store, reading only. -/
def readUsers (s : Store) : (List (List Char × UserRec) × List (List Char)) × Store :=
  (load_users s.usersFile, s)

end P

/-! ## The comma and JSON variant (app.py) -/

/-- The opening curly brace character. -/
def lbrace : Char := Char.ofNat 123

/-- The closing curly brace character. -/
def rbrace : Char := Char.ofNat 125

namespace A

/-- How the load_users loop of app.py treats one line of users.txt: the
stripped line must be nonempty, contain a comma and split into at least
two fields; the first two fields are the username and the stored hash. -/
def classifyUserLine (line : List Char) : Option (List Char × List Char) :=
  let s := pyStrip line
  if s ≠ [] && s.contains ',' then
    match splitOnChar ',' s with
    | u :: p :: _ => some (u, p)
    | _ => none
  else none

/-- load_users from app.py: an insertion-ordered dict from username to
stored password hash. -/
def load_users (file : Option (List Char)) : List (List Char × List Char) :=
  match file with
  | none => []
  | some content =>
    (linesOf content).foldl
      (fun acc line =>
        match classifyUserLine line with
        | none => acc
        | some (u, p) => dictInsert acc u p)
      []

/-- The sequence of account records of the file in line order, before the
dict collapses duplicate usernames. -/
def userRecords (file : Option (List Char)) : List (List Char × List Char) :=
  (linesOf (contentOf file)).filterMap classifyUserLine

/-- save_user from app.py: append one comma-joined username and hash
line. -/
def save_user (file : Option (List Char)) (username password : List Char) :
    Option (List Char) :=
  appendText file (username ++ ',' :: hash_password password ++ ['\n'])

/-- The credential check of the app.py login branch: username in users
and the stored hash equals the hash of the submitted password. -/
def login_check (users : List (List Char × List Char))
    (username password : List Char) : Bool :=
  match dictFind? users username with
  | none => false
  | some stored => stored = hash_password password

/-- The app.py Sign Up branch: reject on a missing field, a short
password, a confirmation mismatch or an existing username, in that
order; otherwise append the new account. -/
def signup (file : Option (List Char)) (username password confirm : List Char) :
    Option (List Char) × Bool :=
  if username = [] || password = [] then (file, false)
  else if password.length < 6 then (file, false)
  else if password ≠ confirm then (file, false)
  else if (dictFind? (load_users file) username).isSome then (file, false)
  else (save_user file username password, true)

/-! ### The JSON values json.loads can produce and json.dumps renders.

Python dicts appear as insertion-ordered member lists; a non-integer
numeric literal is kept as its lexeme, since no claim depends on float
arithmetic. -/

mutual
inductive J where
  | null
  | bool (b : Bool)
  | int (n : Int)
  | numLex (s : List Char)
  | str (s : List Char)
  | arr (elems : JList)
  | obj (members : JMembers)
inductive JList where
  | nil
  | cons (hd : J) (tl : JList)
inductive JMembers where
  | nil
  | cons (key : List Char) (val : J) (tl : JMembers)
end

/-- Dict insertion at the JSON level: an existing key keeps its position
and receives the new value, a new key goes to the end.  json.loads builds
objects this way, so an object with a duplicated key keeps the last
value. -/
def mInsert : JMembers → List Char → J → JMembers
  | .nil, k, v => .cons k v .nil
  | .cons k1 v1 rest, k, v =>
    if k1 = k then .cons k v rest else .cons k1 v1 (mInsert rest k v)

/-- Fold a parsed member sequence into a dict. -/
def mFold : JMembers → JMembers → JMembers
  | acc, .nil => acc
  | acc, .cons k v rest => mFold (mInsert acc k v) rest

/-- Python dict get on an object value. -/
def memberFind? : JMembers → List Char → Option J
  | .nil, _ => none
  | .cons k v rest, key => if k = key then some v else memberFind? rest key

/-! ### json.dumps with the default arguments
(ensure ascii, separators comma-space and colon-space) -/

/-- Decimal digits of a positive number, least significant first. -/
def natLexAux : Nat → Nat → List Char
  | 0, _ => []
  | _ + 1, 0 => []
  | fuel + 1, n => digitChar (n % 10) :: natLexAux fuel (n / 10)

/-- Decimal rendering of a natural number. -/
def natLex (n : Nat) : List Char :=
  if n = 0 then ['0'] else (natLexAux n n).reverse

/-- Python str of an int. -/
def intLex (n : Int) : List Char :=
  if n < 0 then '-' :: natLex n.natAbs else natLex n.natAbs

/-- A backslash-u escape with four lowercase hex digits. -/
def uEsc (n : Nat) : List Char :=
  ['\\', 'u', hexDigit (n / 0x1000 % 16), hexDigit (n / 0x100 % 16),
   hexDigit (n / 0x10 % 16), hexDigit (n % 16)]

/-- How json.dumps renders one character inside a string literal: the
two-character escapes for quote, backslash and the five named control
characters, printable ascii verbatim, and a backslash-u escape (a
surrogate pair beyond the basic plane) for everything else. -/
def escStrChar (c : Char) : List Char :=
  if c = '"' then ['\\', '"']
  else if c = '\\' then ['\\', '\\']
  else if c = '\n' then ['\\', 'n']
  else if c = '\t' then ['\\', 't']
  else if c = '\r' then ['\\', 'r']
  else if c = '\x08' then ['\\', 'b']
  else if c = '\x0c' then ['\\', 'f']
  else if 0x20 ≤ c.toNat ∧ c.toNat ≤ 0x7e then [c]
  else if c.toNat < 0x10000 then uEsc c.toNat
  else
    uEsc (0xd800 + (c.toNat - 0x10000) / 0x400) ++
    uEsc (0xdc00 + (c.toNat - 0x10000) % 0x400)

/-- json.dumps of a string. -/
def dumpStr (s : List Char) : List Char :=
  '"' :: (s.map escStrChar).flatten ++ ['"']

mutual
/-- json.dumps with its default arguments. -/
def dumps : J → List Char
  | .null => "null".data
  | .bool true => "true".data
  | .bool false => "false".data
  | .int n => intLex n
  | .numLex s => s
  | .str s => dumpStr s
  | .arr .nil => ['[', ']']
  | .arr (.cons x xs) => '[' :: (dumps x ++ dumpsArrTail xs) ++ [']']
  | .obj .nil => [lbrace, rbrace]
  | .obj (.cons k v ms) =>
    lbrace :: (dumpStr k ++ ':' :: ' ' :: dumps v ++ dumpsObjTail ms) ++ [rbrace]
/-- The remaining elements of an array, each preceded by comma-space. -/
def dumpsArrTail : JList → List Char
  | .nil => []
  | .cons x xs => ',' :: ' ' :: (dumps x ++ dumpsArrTail xs)
/-- The remaining members of an object, each preceded by comma-space. -/
def dumpsObjTail : JMembers → List Char
  | .nil => []
  | .cons k v ms => ',' :: ' ' :: (dumpStr k ++ ':' :: ' ' :: dumps v ++ dumpsObjTail ms)
end

/-! ### json.loads -/

/-- The whitespace characters the JSON decoder skips between tokens. -/
def skipWs (cs : List Char) : List Char :=
  cs.dropWhile fun c => c = ' ' || c = '\t' || c = '\n' || c = '\r'

/-- Value of a hexadecimal digit, either case. -/
def hexVal? (c : Char) : Option Nat :=
  if '0' ≤ c ∧ c ≤ '9' then some (c.toNat - 48)
  else if 'a' ≤ c ∧ c ≤ 'f' then some (c.toNat - 87)
  else if 'A' ≤ c ∧ c ≤ 'F' then some (c.toNat - 55)
  else none

/-- The JSON string scanner, after the opening quote: two-character
escapes, backslash-u escapes with surrogate-pair recombination, a
rejection of unescaped control characters, and any other character
verbatim.  As in the Python scanner, a backslash-u escape denoting a
lone surrogate is accepted: a high surrogate pairs with an immediately
following low-surrogate escape, and otherwise stands alone, as any low
surrogate does.  A lone surrogate is a code point no Lean Char can
hold, so Char.ofNat keeps a null placeholder for it; acceptance and
rejection of the line agree with json.loads either way. -/
def parseStrBody : List Char → Option (List Char × List Char)
  | [] => none
  | '"' :: rest => some ([], rest)
  | '\\' :: 'u' :: h1 :: h2 :: h3 :: h4 :: rest =>
    (match hexVal? h1, hexVal? h2, hexVal? h3, hexVal? h4 with
     | some a, some b, some c, some d =>
       let n := a * 4096 + b * 256 + c * 16 + d
       if 0xd800 ≤ n ∧ n ≤ 0xdbff then
         match _hr : rest with
         | '\\' :: 'u' :: g1 :: g2 :: g3 :: g4 :: rest2 =>
           (match hexVal? g1, hexVal? g2, hexVal? g3, hexVal? g4 with
            | some a2, some b2, some c2, some d2 =>
              let m := a2 * 4096 + b2 * 256 + c2 * 16 + d2
              if 0xdc00 ≤ m ∧ m ≤ 0xdfff then
                (parseStrBody rest2).map fun p =>
                  (Char.ofNat (0x10000 + (n - 0xd800) * 0x400 + (m - 0xdc00)) :: p.1, p.2)
              else (parseStrBody rest).map fun p => (Char.ofNat n :: p.1, p.2)
            | _, _, _, _ => none)
         | _ => (parseStrBody rest).map fun p => (Char.ofNat n :: p.1, p.2)
       else (parseStrBody rest).map fun p => (Char.ofNat n :: p.1, p.2)
     | _, _, _, _ => none)
  | '\\' :: e :: rest =>
    (match
      (if e = '"' then some '"' else if e = '\\' then some '\\'
       else if e = '/' then some '/' else if e = 'b' then some '\x08'
       else if e = 'f' then some '\x0c' else if e = 'n' then some '\n'
       else if e = 'r' then some '\r' else if e = 't' then some '\t'
       else none) with
     | some c => (parseStrBody rest).map fun p => (c :: p.1, p.2)
     | none => none)
  | c :: rest =>
    if c.toNat < 0x20 then none
    else (parseStrBody rest).map fun p => (c :: p.1, p.2)
termination_by cs => cs.length
decreasing_by
  all_goals simp_all
  all_goals omega

/-- Longest prefix of decimal digits. -/
def takeDigits : List Char → List Char × List Char
  | [] => ([], [])
  | c :: cs =>
    if '0' ≤ c ∧ c ≤ '9' then
      let p := takeDigits cs
      (c :: p.1, p.2)
    else ([], c :: cs)

/-- The integer part of the JSON number grammar: a single zero, or a
nonzero digit followed by digits. -/
def parseIntPart : List Char → Option (List Char × List Char)
  | [] => none
  | c :: cs =>
    if c = '0' then some (['0'], cs)
    else if '1' ≤ c ∧ c ≤ '9' then
      let p := takeDigits cs
      some (c :: p.1, p.2)
    else none

/-- The optional fraction part: a dot followed by at least one digit;
anything else leaves the input untouched. -/
def parseFracPart : List Char → Option (List Char × List Char)
  | '.' :: rest =>
    (match takeDigits rest with
     | ([], _) => none
     | (ds, r) => some ('.' :: ds, r))
  | _ => none

/-- The optional exponent part: e or E, an optional sign, at least one
digit. -/
def parseExpPart : List Char → Option (List Char × List Char)
  | e :: s :: rest =>
    if e = 'e' || e = 'E' then
      if s = '+' || s = '-' then
        match takeDigits rest with
        | ([], _) => none
        | (ds, r) => some (e :: s :: ds, r)
      else
        match takeDigits (s :: rest) with
        | ([], _) => none
        | (ds, r) => some (e :: ds, r)
    else none
  | [e] =>
    if e = 'e' || e = 'E' then none else none
  | [] => none

def digitsToNat (ds : List Char) : Nat :=
  ds.foldl (fun acc c => acc * 10 + (c.toNat - 48)) 0

/-- The JSON number scanner: an integer literal becomes a Python int, a
literal with a fraction or exponent part stays a float, kept here as its
lexeme. -/
def parseNumber (cs : List Char) : Option (J × List Char) :=
  let sgn : Bool × List Char := match cs with | '-' :: r => (true, r) | _ => (false, cs)
  match parseIntPart sgn.2 with
  | none => none
  | some (ip, r1) =>
    let fr : List Char × List Char :=
      match parseFracPart r1 with
      | some (f, r) => (f, r)
      | none => ([], r1)
    let ex : List Char × List Char :=
      match parseExpPart fr.2 with
      | some (x, r) => (x, r)
      | none => ([], fr.2)
    if fr.1 = [] ∧ ex.1 = [] then
      some (J.int (if sgn.1 then -(Int.ofNat (digitsToNat ip)) else Int.ofNat (digitsToNat ip)), ex.2)
    else
      some (J.numLex ((if sgn.1 then ['-'] else []) ++ ip ++ fr.1 ++ ex.1), ex.2)

mutual
/-- The JSON value scanner, fuel-driven; the fuel only bounds the
recursion through containers and the top-level entry point passes more
than the input length, which no accepting run can exhaust. -/
def parseVal : Nat → List Char → Option (J × List Char)
  | 0, _ => none
  | _ + 1, [] => none
  | fuel + 1, c :: rest =>
    if c = '"' then (parseStrBody rest).map fun p => (J.str p.1, p.2)
    else if c = '[' then
      match skipWs rest with
      | ']' :: r2 => some (J.arr .nil, r2)
      | r1 =>
        match parseVal fuel r1 with
        | some (v, r2) =>
          (match parseArrTail fuel (skipWs r2) with
           | some (vs, r3) => some (J.arr (.cons v vs), r3)
           | none => none)
        | none => none
    else if c = lbrace then
      match skipWs rest with
      | [] => none
      | c1 :: r2 =>
        if c1 = rbrace then some (J.obj .nil, r2)
        else if c1 = '"' then
          match parseStrBody r2 with
          | some (k, r3) =>
            (match skipWs r3 with
             | ':' :: r4 =>
               (match parseVal fuel (skipWs r4) with
                | some (v, r5) =>
                  (match parseObjTail fuel (skipWs r5) with
                   | some (ms, r6) => some (J.obj (mFold .nil (.cons k v ms)), r6)
                   | none => none)
                | none => none)
             | _ => none)
          | none => none
        else none
    else if c = 'n' then
      match rest with
      | 'u' :: 'l' :: 'l' :: r => some (J.null, r)
      | _ => none
    else if c = 't' then
      match rest with
      | 'r' :: 'u' :: 'e' :: r => some (J.bool true, r)
      | _ => none
    else if c = 'f' then
      match rest with
      | 'a' :: 'l' :: 's' :: 'e' :: r => some (J.bool false, r)
      | _ => none
    else if c = 'N' then
      match rest with
      | 'a' :: 'N' :: r => some (J.numLex ['N', 'a', 'N'], r)
      | _ => none
    else if c = 'I' then
      match rest with
      | 'n' :: 'f' :: 'i' :: 'n' :: 'i' :: 't' :: 'y' :: r =>
        some (J.numLex ['I', 'n', 'f', 'i', 'n', 'i', 't', 'y'], r)
      | _ => none
    else if c = '-' then
      match rest with
      | 'I' :: 'n' :: 'f' :: 'i' :: 'n' :: 'i' :: 't' :: 'y' :: r =>
        some (J.numLex ['-', 'I', 'n', 'f', 'i', 'n', 'i', 't', 'y'], r)
      | _ => parseNumber (c :: rest)
    else parseNumber (c :: rest)
/-- After one array element: a closing bracket ends the array, a comma
is followed by the next element. -/
def parseArrTail : Nat → List Char → Option (JList × List Char)
  | 0, _ => none
  | _ + 1, [] => none
  | fuel + 1, c :: rest =>
    if c = ']' then some (.nil, rest)
    else if c = ',' then
      match parseVal fuel (skipWs rest) with
      | some (v, r2) =>
        (match parseArrTail fuel (skipWs r2) with
         | some (vs, r3) => some (.cons v vs, r3)
         | none => none)
      | none => none
    else none
/-- After one object member: a closing brace ends the object, a comma is
followed by the next quoted key, colon and value. -/
def parseObjTail : Nat → List Char → Option (JMembers × List Char)
  | 0, _ => none
  | _ + 1, [] => none
  | fuel + 1, c :: rest =>
    if c = rbrace then some (.nil, rest)
    else if c = ',' then
      match skipWs rest with
      | '"' :: r2 =>
        (match parseStrBody r2 with
         | some (k, r3) =>
           (match skipWs r3 with
            | ':' :: r4 =>
              (match parseVal fuel (skipWs r4) with
               | some (v, r5) =>
                 (match parseObjTail fuel (skipWs r5) with
                  | some (ms, r6) => some (.cons k v ms, r6)
                  | none => none)
               | none => none)
            | _ => none)
         | none => none)
      | _ => none
    else none
end

/-- json.loads: skip leading whitespace, scan one value, and require
only whitespace to remain. -/
def loads (s : List Char) : Option J :=
  match parseVal (s.length + 1) (skipWs s) with
  | some (v, rest) => if skipWs rest = [] then some v else none
  | none => none

/-! ### Bookings (app.py) -/

/-- The booking dict assembled by the Confirm Booking handler, in its
insertion order. -/
structure Booking where
  booking_id : List Char
  username : List Char
  museum_name : List Char
  museum_city : List Char
  museum_state : List Char
  museum_type : List Char
  date : List Char
  time : List Char
  num_people : Int
  tour_type : List Char
  contact_name : List Char
  contact_email : List Char
  contact_phone : List Char
  special_requests : List Char
  booking_timestamp : List Char
deriving DecidableEq, Repr

/-- The member list of the booking dict, keys in insertion order. -/
def bookingMembers (b : Booking) : JMembers :=
  (.cons "booking_id".data (.str b.booking_id)
    (.cons "username".data (.str b.username)
    (.cons "museum_name".data (.str b.museum_name)
    (.cons "museum_city".data (.str b.museum_city)
    (.cons "museum_state".data (.str b.museum_state)
    (.cons "museum_type".data (.str b.museum_type)
    (.cons "date".data (.str b.date)
    (.cons "time".data (.str b.time)
    (.cons "num_people".data (.int b.num_people)
    (.cons "tour_type".data (.str b.tour_type)
    (.cons "contact_name".data (.str b.contact_name)
    (.cons "contact_email".data (.str b.contact_email)
    (.cons "contact_phone".data (.str b.contact_phone)
    (.cons "special_requests".data (.str b.special_requests)
    (.cons "booking_timestamp".data (.str b.booking_timestamp) .nil)))))))))))))))

/-- The JSON object value of a booking dict. -/
def toJson (b : Booking) : J := J.obj (bookingMembers b)

/-- save_booking from app.py: append the json.dumps encoding of the
booking dict and a line feed. -/
def save_booking (file : Option (List Char)) (b : Booking) : Option (List Char) :=
  appendText file (dumps (toJson b) ++ ['\n'])

/-- The test the loop applies to a parsed line:
booking.get of the username key compared to the session user with
Python string equality; a missing key or a non-string value compares
unequal. -/
def usernameMatches (ms : JMembers) (u : List Char) : Bool :=
  match memberFind? ms "username".data with
  | some (J.str s) => s = u
  | _ => false

/-- The loop of load_user_bookings over the file lines: a blank line is
skipped, a line json.loads rejects is skipped by the except clause, an
object line is kept when its username member matches, and a line whose
JSON value is not an object raises an attribute error on the get call,
which the outer handler catches, ending the scan with the bookings
collected so far. -/
def scanBookingLines (username : List Char) : List (List Char) → List J
  | [] => []
  | line :: rest =>
    let s := pyStrip line
    if s = [] then scanBookingLines username rest
    else
      match loads s with
      | none => scanBookingLines username rest
      | some (J.obj ms) =>
        if usernameMatches ms username then J.obj ms :: scanBookingLines username rest
        else scanBookingLines username rest
      | some _ => []

/-- load_user_bookings from app.py. -/
def load_user_bookings (username : List Char) (file : Option (List Char)) : List J :=
  match file with
  | none => []
  | some content => scanBookingLines username (linesOf content)

/-- The lines printed while the load_user_bookings loop runs: a rejected
line is skipped by a bare continue, so nothing is ever printed. -/
def load_user_bookings_prints (file : Option (List Char)) : List (List Char) :=
  (linesOf (contentOf file)).foldl (fun acc _line => acc) []

/-- Saving a sequence of bookings in order. -/
def save_all (file : Option (List Char)) (bs : List Booking) : Option (List Char) :=
  bs.foldl save_booking file

/-! ### Wellformedness vocabulary for the JSON layer -/

/-- The keys of an object member list, in order. -/
def mKeys : JMembers → List (List Char)
  | .nil => []
  | .cons k _ rest => k :: mKeys rest

/-- Concatenation of member lists. -/
def mAppend : JMembers → JMembers → JMembers
  | .nil, ms => ms
  | .cons k v rest, ms => .cons k v (mAppend rest ms)

/-- Pairwise distinctness of object keys. -/
def keysUnique : JMembers → Bool
  | .nil => true
  | .cons k _ rest => !(mKeys rest).contains k && keysUnique rest

mutual
/-- The JSON values whose dumps rendering parses back to themselves:
no raw numeric lexeme and no duplicated object key at any level. -/
def jwf : J → Bool
  | .null => true
  | .bool _ => true
  | .int _ => true
  | .numLex _ => false
  | .str _ => true
  | .arr es => jlwf es
  | .obj ms => jmwf ms && keysUnique ms
def jlwf : JList → Bool
  | .nil => true
  | .cons x xs => jwf x && jlwf xs
def jmwf : JMembers → Bool
  | .nil => true
  | .cons _ v rest => jwf v && jmwf rest
end

mutual
/-- Fuel sufficient for parseVal to scan the dumps rendering. -/
def jSize : J → Nat
  | .null => 1
  | .bool _ => 1
  | .int _ => 1
  | .numLex _ => 1
  | .str _ => 1
  | .arr .nil => 1
  | .arr (.cons x xs) => max (jSize x) (jlSize xs) + 1
  | .obj .nil => 1
  | .obj (.cons _ v ms) => max (jSize v) (jmSize ms) + 1
/-- Fuel sufficient for parseArrTail after the first element. -/
def jlSize : JList → Nat
  | .nil => 1
  | .cons x xs => max (jSize x) (jlSize xs) + 1
/-- Fuel sufficient for parseObjTail after the first member. -/
def jmSize : JMembers → Nat
  | .nil => 1
  | .cons _ v ms => max (jSize v) (jmSize ms) + 1
end

/-- The head character class of a dumps rendering. -/
def headClass (c : Char) : Prop :=
  c = '"' ∨ c = '[' ∨ c = lbrace ∨ c = 'n' ∨ c = 't' ∨ c = 'f' ∨ c = '-' ∨
    ('0' ≤ c ∧ c ≤ '9')

instance (c : Char) : Decidable (headClass c) := by
  unfold headClass
  infer_instance


/-- A line the load_user_bookings loop passes without aborting: blank
after stripping, rejected by json.loads, or parsed to an object. -/
def lineSafe (line : List Char) : Bool :=
  pyStrip line == [] ||
    match loads (pyStrip line) with
    | some (J.obj _) => true
    | none => true
    | some _ => false

/-- A bookings-file state the scan loop of load_user_bookings traverses in
full: terminator discipline and only lines the loop passes. -/
def ScanSafe (file : Option (List Char)) : Prop :=
  StoreOk (contentOf file) ∧
    ∀ line ∈ linesOf (contentOf file), lineSafe line = true


end A

namespace A

/-- Sign-up inputs that cannot forge or damage other lines of the
accounts file of app.py: no comma, no line terminator, no leading
whitespace. -/
def CleanReg (username : List Char) : Prop :=
  (∀ x ∈ username, ¬x = ',' ∧ ¬x = '\n' ∧ ¬x = '\r') ∧
  (∀ x, username.head? = some x → isPySpace x = false)

instance (u : List Char) : Decidable (CleanReg u) := by
  unfold CleanReg; infer_instance

/-- The accounts-file states reachable, from the missing file, through
the Sign Up branch alone with well-behaved inputs. -/
inductive Reached : Option (List Char) → Prop
  | init : Reached none
  | step (file : Option (List Char)) (username password confirm : List Char) :
      Reached file → CleanReg username →
      Reached (signup file username password confirm).1

end A

namespace A

/-- Running load_users of app.py against the store, reading only. -/
def readUsers (s : Store) : List (List Char × List Char) × Store :=
  (load_users s.usersFile, s)

/-- Running load_user_bookings of app.py against the store, reading
only. -/
def readBookings (username : List Char) (s : Store) : List J × Store :=
  (load_user_bookings username s.bookingsFile, s)

end A


/-- A continuation after a JSON number literal: empty, or starting with a
character that cannot extend the literal. -/
def DelimNum (cs : List Char) : Prop :=
  ∀ x, cs.head? = some x →
    ¬('0' ≤ x ∧ x ≤ '9') ∧ ¬x = '.' ∧ ¬x = 'e' ∧ ¬x = 'E' ∧ ¬x = '-'

instance (cs : List Char) : Decidable (DelimNum cs) := by
  unfold DelimNum; infer_instance

/-! ## Lemmas: string primitives -/

theorem splitOnChar_ne_nil (sep : Char) (l : List Char) : splitOnChar sep l ≠ [] := by
  induction l with
  | nil => simp [splitOnChar]
  | cons c cs ih =>
    simp only [splitOnChar]
    split
    · simp
    · cases h : splitOnChar sep cs with
      | nil => exact absurd h ih
      | cons a as => simp

theorem splitOnChar_append_sep (sep : Char) (a b : List Char) :
    splitOnChar sep (a ++ sep :: b) = splitOnChar sep a ++ splitOnChar sep b := by
  induction a with
  | nil => simp [splitOnChar]
  | cons c cs ih =>
    simp only [List.cons_append, splitOnChar]
    split
    · simp [ih]
    · cases h : splitOnChar sep cs with
      | nil => exact absurd h (splitOnChar_ne_nil sep cs)
      | cons x xs =>
        rw [show cs.append (sep :: b) = cs ++ sep :: b from rfl, ih, h]
        simp

theorem splitOnChar_eq_single (sep : Char) (l : List Char) (h : sep ∉ l) :
    splitOnChar sep l = [l] := by
  induction l with
  | nil => simp [splitOnChar]
  | cons c cs ih =>
    simp only [splitOnChar]
    rw [if_neg (by rintro rfl; exact h (List.mem_cons_self _ _))]
    rw [ih fun hc => h (List.mem_cons_of_mem _ hc)]
    simp

theorem univNewlines_cons_of_ne (c : Char) (cs : List Char) (h : ¬c = '\r') :
    univNewlines (c :: cs) = c :: univNewlines cs := by
  cases cs <;> simp [univNewlines, h]

theorem univNewlines_eq_self (l : List Char) (h : ∀ x ∈ l, ¬x = '\r') :
    univNewlines l = l := by
  induction l with
  | nil => rfl
  | cons c cs ih =>
    rw [univNewlines_cons_of_ne c cs (h c (List.mem_cons_self _ _)),
      ih fun x hx => h x (List.mem_cons_of_mem _ hx)]

theorem pyStrip_eq_self (l : List Char)
    (h1 : ∀ x, l.head? = some x → isPySpace x = false)
    (h2 : ∀ x, l.getLast? = some x → isPySpace x = false) :
    pyStrip l = l := by
  unfold pyStrip
  have front : l.dropWhile isPySpace = l := by
    cases l with
    | nil => rfl
    | cons c cs =>
      rw [List.dropWhile_cons_of_neg]
      simp [h1 c rfl]
  rw [front]
  have back : l.reverse.dropWhile isPySpace = l.reverse := by
    cases hr : l.reverse with
    | nil => rfl
    | cons c cs =>
      rw [List.dropWhile_cons_of_neg]
      have : l.getLast? = some c := by
        rw [← List.head?_reverse, hr]; rfl
      simp [h2 c this]
  rw [back, List.reverse_reverse]

/-! ## Lemmas: store files as line sequences -/

theorem storeOk_nil : StoreOk [] := ⟨by simp, Or.inl rfl⟩

theorem storeOk_append (c l : List Char) (hc : StoreOk c) (hl : NoNLCR l) :
    StoreOk (c ++ (l ++ ['\n'])) := by
  constructor
  · intro x hx
    rcases List.mem_append.mp hx with h | h
    · exact hc.1 x h
    · rcases List.mem_append.mp h with h | h
      · exact (hl x h).2
      · simp at h; simp [h]
  · right
    rw [← List.append_assoc]
    simp

theorem linesOf_split (c : List Char) (hc : StoreOk c) :
    linesOf c = splitOnChar '\n' c := by
  unfold linesOf
  rw [univNewlines_eq_self c hc.1]

theorem linesOf_terminated (c : List Char) (hc : StoreOk c) :
    ∃ L, linesOf c = L ++ [[]] := by
  rw [linesOf_split c hc]
  rcases hc.2 with h | h
  · exact ⟨[], by simp [h, splitOnChar]⟩
  · rcases List.getLast?_eq_some_iff.mp h with ⟨c0, rfl⟩
    refine ⟨splitOnChar '\n' c0, ?_⟩
    have : c0 ++ ['\n'] = c0 ++ '\n' :: [] := rfl
    rw [this, splitOnChar_append_sep]
    rfl

theorem linesOf_append_line (c l : List Char) (hc : StoreOk c) (hl : NoNLCR l) :
    linesOf (c ++ (l ++ ['\n'])) = (linesOf c).dropLast ++ [l, []] := by
  have hall : ∀ x ∈ c ++ (l ++ ['\n']), ¬x = '\r' :=
    (storeOk_append c l hc hl).1
  unfold linesOf
  rw [univNewlines_eq_self _ hall, univNewlines_eq_self c hc.1]
  have hsingle : splitOnChar '\n' l = [l] :=
    splitOnChar_eq_single '\n' l fun hmem => (hl _ hmem).1 rfl
  rcases hc.2 with h | h
  · subst h
    have : l ++ ['\n'] = l ++ '\n' :: [] := rfl
    simp only [List.nil_append, this, splitOnChar_append_sep, hsingle]
    rfl
  · rcases List.getLast?_eq_some_iff.mp h with ⟨c0, rfl⟩
    have e1 : (c0 ++ ['\n']) ++ (l ++ ['\n']) = c0 ++ '\n' :: (l ++ '\n' :: []) := by
      simp
    have e3 : splitOnChar '\n' (c0 ++ ['\n']) = splitOnChar '\n' c0 ++ [[]] := by
      have e2 : c0 ++ ['\n'] = c0 ++ '\n' :: [] := rfl
      rw [e2, splitOnChar_append_sep]
      rfl
    rw [e1, splitOnChar_append_sep, splitOnChar_append_sep, hsingle, e3,
      List.dropLast_concat]
    rfl

/-! ## Lemmas: dict folds -/

theorem dictFind?_insert_self {α : Type} (d : List (List Char × α)) (k : List Char) (v : α) :
    dictFind? (dictInsert d k v) k = some v := by
  induction d with
  | nil => simp [dictInsert, dictFind?]
  | cons p rest ih =>
    obtain ⟨k1, v1⟩ := p
    simp only [dictInsert]
    split
    · simp [dictFind?]
    · simp only [dictFind?]
      rw [if_neg (by assumption), ih]

theorem dictFind?_insert_ne {α : Type} (d : List (List Char × α)) (k k' : List Char) (v : α)
    (h : ¬k = k') :
    dictFind? (dictInsert d k v) k' = dictFind? d k' := by
  induction d with
  | nil => simp [dictInsert, dictFind?, h]
  | cons p rest ih =>
    obtain ⟨k1, v1⟩ := p
    simp only [dictInsert]
    split
    · rename_i hk
      subst hk
      simp [dictFind?, h]
    · simp only [dictFind?]
      split
      · rfl
      · exact ih

theorem dictFind?_foldl_insert {α : Type} (ps : List (List Char × α))
    (d0 : List (List Char × α)) (k : List Char) :
    dictFind? (ps.foldl (fun d p => dictInsert d p.1 p.2) d0) k =
      match ps.reverse.find? (fun p => p.1 == k) with
      | some p => some p.2
      | none => dictFind? d0 k := by
  induction ps generalizing d0 with
  | nil => simp
  | cons p rest ih =>
    simp only [List.foldl_cons, List.reverse_cons, List.find?_append]
    rw [ih]
    cases hf : rest.reverse.find? (fun q => q.1 == k) with
    | some q => simp
    | none =>
      simp only [Option.none_orElse]
      by_cases hk : p.1 = k
      · subst hk
        simp [List.find?, dictFind?_insert_self]
      · rw [dictFind?_insert_ne _ _ _ _ hk]
        have : (p.1 == k) = false := by simp [hk]
        simp [List.find?, this]

/-! ## Lemmas: generic loader shapes -/

theorem filterMap_linesOf_append {α : Type} (f : List Char → Option α)
    (hf : f [] = none) (c l : List Char) (hc : StoreOk c) (hl : NoNLCR l) :
    (linesOf (c ++ (l ++ ['\n']))).filterMap f =
      (linesOf c).filterMap f ++ (f l).toList := by
  rw [linesOf_append_line c l hc hl]
  rcases linesOf_terminated c hc with ⟨L, hL⟩
  rw [hL, List.dropLast_concat]
  simp only [List.filterMap_append, List.filterMap_cons, hf, List.filterMap_nil]
  cases f l <;> simp

theorem foldl_keep_linesOf (c : List Char) (acc0 : List (List Char)) :
    (linesOf c).foldl (fun acc _line => acc) acc0 = acc0 := by
  induction linesOf c generalizing acc0 with
  | nil => rfl
  | cons l ls ih => exact ih acc0

/-! ## Lemmas: digest characters -/

theorem sha256Hex_chars (msg : List Nat) :
    ∀ x ∈ sha256Hex msg, (48 ≤ x.toNat ∧ x.toNat ≤ 57) ∨ (97 ≤ x.toNat ∧ x.toNat ≤ 102) := by
  have hdigit : ∀ m : Nat, m < 16 →
      (48 ≤ (hexDigit m).toNat ∧ (hexDigit m).toNat ≤ 57) ∨
      (97 ≤ (hexDigit m).toNat ∧ (hexDigit m).toNat ≤ 102) := by decide
  intro x hx
  rcases List.mem_flatten.mp hx with ⟨chars, hchars, hxin⟩
  rcases List.mem_map.mp hchars with ⟨w, _, rfl⟩
  unfold word8Hex at hxin
  simp only [List.mem_cons, List.not_mem_nil, or_false] at hxin
  rcases hxin with rfl | rfl | rfl | rfl | rfl | rfl | rfl | rfl <;>
    exact hdigit _ (Nat.mod_lt _ (by norm_num))

theorem hash_password_chars (p : List Char) :
    ∀ x ∈ hash_password p,
      (48 ≤ x.toNat ∧ x.toNat ≤ 57) ∨ (97 ≤ x.toNat ∧ x.toNat ≤ 102) :=
  sha256Hex_chars (utf8Encode p)

theorem hexRange_not_space (x : Char)
    (h : (48 ≤ x.toNat ∧ x.toNat ≤ 57) ∨ (97 ≤ x.toNat ∧ x.toNat ≤ 102)) :
    isPySpace x = false := by
  have hx : 48 ≤ x.toNat ∧ x.toNat ≤ 102 := by omega
  unfold isPySpace
  simp only [Bool.or_eq_false_iff, Bool.and_eq_false_iff, decide_eq_false_iff_not]
  repeat' constructor
  all_goals first
    | (intro heq; subst heq; revert hx; decide)
    | (intro hle
       have h2 : 8192 ≤ x.toNat := Char.le_def.mp hle
       omega)

theorem hexRange_not_char (x c : Char)
    (h : (48 ≤ x.toNat ∧ x.toNat ≤ 57) ∨ (97 ≤ x.toNat ∧ x.toNat ≤ 102))
    (hc : c.toNat < 48 ∨ (57 < c.toNat ∧ c.toNat < 97) ∨ 102 < c.toNat) :
    ¬x = c := by
  intro heq
  subst heq
  omega

theorem hash_password_clean (p : List Char) : CleanField (hash_password p) := by
  intro x hx
  have h := hash_password_chars p x hx
  exact ⟨hexRange_not_char x _ h (by decide), hexRange_not_char x _ h (by decide),
    hexRange_not_char x _ h (by decide)⟩

theorem hash_password_not_space (p : List Char) :
    ∀ x ∈ hash_password p, isPySpace x = false := fun x hx =>
  hexRange_not_space x (hash_password_chars p x hx)

/-! ## Lemmas: the pipe codec of p.py -/

namespace P

theorem encodeBooking_ne_nil (b : Booking) : encodeBooking b ≠ [] := by
  unfold encodeBooking
  simp

theorem encodeBooking_noNLCR (b : Booking) (hb : CleanBooking b) :
    NoNLCR (encodeBooking b) := by
  obtain ⟨h1, h2, h3, h4, h5, h6, h7, h8, h9, _, _⟩ := hb
  intro x hx
  unfold encodeBooking at hx
  simp only [List.mem_append, List.mem_cons, or_assoc] at hx
  rcases hx with h | rfl | h | rfl | h | rfl | h | rfl | h | rfl | h | rfl | h | rfl | h | rfl | h
  all_goals first
    | exact ⟨by decide, by decide⟩
    | exact ⟨(h1 x h).2.1, (h1 x h).2.2⟩
    | exact ⟨(h2 x h).2.1, (h2 x h).2.2⟩
    | exact ⟨(h3 x h).2.1, (h3 x h).2.2⟩
    | exact ⟨(h4 x h).2.1, (h4 x h).2.2⟩
    | exact ⟨(h5 x h).2.1, (h5 x h).2.2⟩
    | exact ⟨(h6 x h).2.1, (h6 x h).2.2⟩
    | exact ⟨(h7 x h).2.1, (h7 x h).2.2⟩
    | exact ⟨(h8 x h).2.1, (h8 x h).2.2⟩
    | exact ⟨(h9 x h).2.1, (h9 x h).2.2⟩

theorem encodeBooking_strip (b : Booking) (hb : CleanBooking b) :
    pyStrip (encodeBooking b) = encodeBooking b := by
  obtain ⟨_, _, _, _, _, _, _, _, _, hhead, hlast⟩ := hb
  apply pyStrip_eq_self
  · intro x hx
    unfold encodeBooking at hx
    simp only [List.append_assoc] at hx
    cases hid : b.booking_id with
    | nil =>
      rw [hid, List.nil_append] at hx
      simp only [List.cons_append, List.head?_cons, Option.some.injEq] at hx
      subst hx
      decide
    | cons a as =>
      rw [hid] at hx
      simp only [List.cons_append, List.head?_cons, Option.some.injEq] at hx
      subst hx
      exact hhead a (by rw [hid]; rfl)
  · intro x hx
    unfold encodeBooking at hx
    rw [List.getLast?_append_cons] at hx
    cases hst : b.status with
    | nil =>
      rw [hst] at hx
      simp only [show ((['|'] : List Char)).getLast? = some '|' from rfl,
        Option.some.injEq] at hx
      subst hx
      decide
    | cons a as =>
      rw [hst, List.getLast?_cons_cons] at hx
      exact hlast x (by rw [hst]; exact hx)

end P

/-! ## Lemmas: p.py booking scans -/

theorem splitOnChar_field (sep : Char) (a f : List Char) (hf : sep ∉ f) :
    splitOnChar sep (a ++ sep :: f) = splitOnChar sep a ++ [f] := by
  rw [splitOnChar_append_sep, splitOnChar_eq_single sep f hf]

namespace P

theorem encodeBooking_split (b : Booking) (hb : CleanBooking b) :
    splitOnChar '|' (encodeBooking b) =
      [b.booking_id, b.username, b.museum, b.date, b.time, b.people,
       b.tour_type, b.booking_date, b.status] := by
  obtain ⟨h1, h2, h3, h4, h5, h6, h7, h8, h9, _, _⟩ := hb
  have m : ∀ f : List Char, CleanField f → '|' ∉ f := fun f hf hmem => (hf _ hmem).1 rfl
  unfold encodeBooking
  rw [splitOnChar_field _ _ _ (m _ h9), splitOnChar_field _ _ _ (m _ h8),
      splitOnChar_field _ _ _ (m _ h7), splitOnChar_field _ _ _ (m _ h6),
      splitOnChar_field _ _ _ (m _ h5), splitOnChar_field _ _ _ (m _ h4),
      splitOnChar_field _ _ _ (m _ h3), splitOnChar_field _ _ _ (m _ h2),
      splitOnChar_eq_single _ _ (m _ h1)]
  rfl

theorem parse_encode (b : Booking) (hb : CleanBooking b) :
    parseBookingLine (encodeBooking b) = some b := by
  unfold parseBookingLine
  rw [encodeBooking_strip b hb]
  rw [if_neg (encodeBooking_ne_nil b)]
  rw [encodeBooking_split b hb]

theorem load_bookings_eq (file : Option (List Char)) :
    load_bookings file = (linesOf (contentOf file)).filterMap parseBookingLine := by
  cases file <;> rfl

theorem load_bookings_append (file : Option (List Char)) (b : Booking)
    (hs : StoreOk (contentOf file)) (hb : CleanBooking b) :
    load_bookings (save_booking file b) = load_bookings file ++ [b] := by
  rw [load_bookings_eq, load_bookings_eq]
  unfold save_booking appendText
  rw [show contentOf (some (contentOf file ++ (encodeBooking b ++ ['\n']))) =
        contentOf file ++ (encodeBooking b ++ ['\n']) from rfl]
  rw [filterMap_linesOf_append parseBookingLine rfl _ _ hs (encodeBooking_noNLCR b hb),
    parse_encode b hb]
  rfl

theorem save_booking_storeOk (file : Option (List Char)) (b : Booking)
    (hs : StoreOk (contentOf file)) (hb : CleanBooking b) :
    StoreOk (contentOf (save_booking file b)) := by
  unfold save_booking appendText
  rw [show contentOf (some (contentOf file ++ (encodeBooking b ++ ['\n']))) =
        contentOf file ++ (encodeBooking b ++ ['\n']) from rfl]
  exact storeOk_append _ _ hs (encodeBooking_noNLCR b hb)

theorem user_bookings_append (u : List Char) (file : Option (List Char)) (b : Booking)
    (hs : StoreOk (contentOf file)) (hb : CleanBooking b) :
    user_bookings u (save_booking file b) =
      user_bookings u file ++ (if b.username = u then [b] else []) := by
  unfold user_bookings
  rw [load_bookings_append file b hs hb, List.filter_append]
  congr 1
  by_cases h : b.username = u <;> simp [h]

theorem load_bookings_save_all (file : Option (List Char)) (bs : List Booking)
    (hs : StoreOk (contentOf file)) (hb : ∀ b ∈ bs, CleanBooking b) :
    load_bookings (save_all file bs) = load_bookings file ++ bs := by
  induction bs generalizing file with
  | nil => simp [save_all]
  | cons b rest ih =>
    have hb0 : CleanBooking b := hb b (List.mem_cons_self _ _)
    have hrest : ∀ x ∈ rest, CleanBooking x := fun x hx => hb x (List.mem_cons_of_mem _ hx)
    unfold save_all
    simp only [List.foldl_cons]
    rw [show List.foldl save_booking (save_booking file b) rest =
          save_all (save_booking file b) rest from rfl,
      ih (save_booking file b) (save_booking_storeOk file b hs hb0) hrest,
      load_bookings_append file b hs hb0]
    simp

/-! ## Lemmas: p.py account lines -/

theorem userLine_noNLCR (u pw e ts : List Char) (hreg : CleanReg u e ts) :
    NoNLCR (u ++ '|' :: hash_password pw ++ '|' :: e ++ '|' :: ts) := by
  obtain ⟨hu, _, he, hts, _⟩ := hreg
  intro x hx
  simp only [List.mem_append, List.mem_cons, or_assoc] at hx
  rcases hx with h | rfl | h | rfl | h | rfl | h
  · exact ⟨(hu x h).2.1, (hu x h).2.2⟩
  · exact ⟨by decide, by decide⟩
  · exact ⟨(hash_password_clean pw x h).2.1, (hash_password_clean pw x h).2.2⟩
  · exact ⟨by decide, by decide⟩
  · exact he x h
  · exact ⟨by decide, by decide⟩
  · exact hts x h

theorem userLine_strip (u pw e ts : List Char) (hu : u ≠ []) (hreg : CleanReg u e ts) :
    pyStrip (u ++ '|' :: hash_password pw ++ '|' :: e ++ '|' :: ts) =
      u ++ '|' :: hash_password pw ++ '|' :: e ++ '|' :: ts := by
  obtain ⟨_, hhead, _, _, hlast⟩ := hreg
  apply pyStrip_eq_self
  · intro x hx
    simp only [List.append_assoc] at hx
    cases hid : u with
    | nil => exact absurd hid hu
    | cons a as =>
      rw [hid] at hx
      simp only [List.cons_append, List.head?_cons, Option.some.injEq] at hx
      subst hx
      exact hhead a (by rw [hid]; rfl)
  · intro x hx
    rw [List.getLast?_append_cons] at hx
    cases hst : ts with
    | nil =>
      rw [hst] at hx
      simp only [show ((['|'] : List Char)).getLast? = some '|' from rfl,
        Option.some.injEq] at hx
      subst hx
      decide
    | cons a as =>
      rw [hst, List.getLast?_cons_cons] at hx
      exact hlast x (by rw [hst]; exact hx)

theorem classify_userLine (u pw e ts : List Char) (hu : u ≠ []) (hreg : CleanReg u e ts) :
    ∃ r : UserRec,
      classifyUserLine (u ++ '|' :: hash_password pw ++ '|' :: e ++ '|' :: ts) = .ok u r := by
  have hs := userLine_strip u pw e ts hu hreg
  have mU : '|' ∉ u := fun hmem => (hreg.1 _ hmem).1 rfl
  have mH : '|' ∉ hash_password pw := fun hmem => (hash_password_clean pw _ hmem).1 rfl
  unfold classifyUserLine
  rw [hs]
  rw [if_neg (by simp)]
  rw [show (u ++ '|' :: hash_password pw ++ '|' :: e ++ '|' :: ts : List Char) =
        ((u ++ '|' :: hash_password pw) ++ '|' :: e) ++ '|' :: ts from by simp,
    splitOnChar_append_sep, splitOnChar_append_sep, splitOnChar_field _ _ _ mH,
    splitOnChar_eq_single _ _ mU]
  rcases hsp : splitOnChar '|' e with _ | ⟨e1, erest⟩
  · exact absurd hsp (splitOnChar_ne_nil _ _)
  · exact ⟨⟨hash_password pw, e1, (erest ++ splitOnChar '|' ts).head?⟩, rfl⟩

end P

/-! ## Lemmas: p.py account store -/

namespace P

theorem load_users_fold (lines : List (List Char))
    (d0 : List (List Char × UserRec)) (w0 : List (List Char)) :
    lines.foldl
      (fun acc line =>
        match classifyUserLine line with
        | .skip => acc
        | .malformed s => (acc.1, acc.2 ++ [s])
        | .ok u r => (dictInsert acc.1 u r, acc.2)) (d0, w0) =
    ((lines.filterMap fun line =>
        match classifyUserLine line with
        | .ok u r => some (u, r)
        | _ => none).foldl (fun d p => dictInsert d p.1 p.2) d0,
     w0 ++ lines.filterMap fun line =>
        match classifyUserLine line with
        | .malformed s => some s
        | _ => none) := by
  induction lines generalizing d0 w0 with
  | nil => simp
  | cons line rest ih =>
    simp only [List.foldl_cons, List.filterMap_cons]
    cases h : classifyUserLine line with
    | skip => simp only [h]; rw [ih]
    | malformed s => simp only [h]; rw [ih]; simp
    | ok u r => simp only [h]; rw [ih]; simp

theorem load_users_some (content : List Char) :
    load_users (some content) =
      ((userRecords (some content)).foldl (fun d p => dictInsert d p.1 p.2) [],
       (linesOf content).filterMap fun line =>
         match classifyUserLine line with
         | .malformed s => some s
         | _ => none) := by
  have e : load_users (some content) =
      (linesOf content).foldl
        (fun acc line =>
          match classifyUserLine line with
          | .skip => acc
          | .malformed s => (acc.1, acc.2 ++ [s])
          | .ok u r => (dictInsert acc.1 u r, acc.2)) ([], []) := rfl
  rw [e, load_users_fold]
  rfl

theorem dictFind_load_users (file : Option (List Char)) (u : List Char) :
    dictFind? (load_users file).1 u =
      ((userRecords file).reverse.find? (fun p => p.1 == u)).map Prod.snd := by
  cases file with
  | none => rfl
  | some content =>
    rw [load_users_some]
    show dictFind? ((userRecords (some content)).foldl (fun d p => dictInsert d p.1 p.2) []) u = _
    rw [dictFind?_foldl_insert]
    cases hf : (userRecords (some content)).reverse.find? (fun p => p.1 == u) with
    | some p => rfl
    | none => rfl

theorem dictFind_none_not_mem (file : Option (List Char)) (u : List Char)
    (h : dictFind? (load_users file).1 u = none) :
    u ∉ (userRecords file).map Prod.fst := by
  rw [dictFind_load_users] at h
  have hfind : (userRecords file).reverse.find? (fun p => p.1 == u) = none :=
    Option.map_eq_none.mp h
  intro hmem
  rcases List.mem_map.mp hmem with ⟨p, hp, hpu⟩
  have := List.find?_eq_none.mp hfind p (List.mem_reverse.mpr hp)
  simp [hpu] at this

theorem userRecords_eq (file : Option (List Char)) :
    userRecords file = (linesOf (contentOf file)).filterMap fun line =>
      match classifyUserLine line with
      | .ok u r => some (u, r)
      | _ => none := rfl

theorem userRecords_append_user (file : Option (List Char)) (u pw e ts : List Char)
    (hs : StoreOk (contentOf file)) (hu : u ≠ []) (hreg : CleanReg u e ts) :
    ∃ r, userRecords (save_user file u pw e ts) = userRecords file ++ [(u, r)] := by
  obtain ⟨r, hr⟩ := classify_userLine u pw e ts hu hreg
  refine ⟨r, ?_⟩
  rw [userRecords_eq, userRecords_eq]
  unfold save_user appendText
  rw [show contentOf (some (contentOf file ++
        (u ++ '|' :: hash_password pw ++ '|' :: e ++ '|' :: ts ++ ['\n']))) =
      contentOf file ++
        ((u ++ '|' :: hash_password pw ++ '|' :: e ++ '|' :: ts) ++ ['\n']) from rfl]
  rw [filterMap_linesOf_append _ rfl _ _ hs (userLine_noNLCR u pw e ts hreg)]
  rw [hr]
  rfl

theorem save_user_storeOk (file : Option (List Char)) (u pw e ts : List Char)
    (hs : StoreOk (contentOf file)) (hreg : CleanReg u e ts) :
    StoreOk (contentOf (save_user file u pw e ts)) := by
  unfold save_user appendText
  rw [show contentOf (some (contentOf file ++
        (u ++ '|' :: hash_password pw ++ '|' :: e ++ '|' :: ts ++ ['\n']))) =
      contentOf file ++
        ((u ++ '|' :: hash_password pw ++ '|' :: e ++ '|' :: ts) ++ ['\n']) from rfl]
  exact storeOk_append _ _ hs (userLine_noNLCR u pw e ts hreg)

theorem register_cases (file : Option (List Char)) (u e pw c ts : List Char) :
    (register file u e pw c ts).1 = file ∨
    ((register file u e pw c ts).1 = save_user file u pw e ts ∧
      u ≠ [] ∧ dictFind? (load_users file).1 u = none) := by
  unfold register
  split
  · exact Or.inl rfl
  · split
    · exact Or.inl rfl
    · split
      · exact Or.inl rfl
      · split
        · exact Or.inl rfl
        · rename_i h1 h2 h3 h4
          refine Or.inr ⟨rfl, ?_, Option.not_isSome_iff_eq_none.mp h2⟩
          intro hu
          exact h1 (by simp [hu])

theorem reached_invariant (file : Option (List Char)) (h : Reached file) :
    StoreOk (contentOf file) ∧ ((userRecords file).map Prod.fst).Nodup := by
  induction h with
  | init => exact ⟨storeOk_nil, by simp [userRecords, linesOf, univNewlines, splitOnChar,
      classifyUserLine, pyStrip, contentOf]⟩
  | step file u e pw c ts hre hclean ih =>
    rcases register_cases file u e pw c ts with heq | ⟨heq, hu, hnone⟩
    · rw [heq]; exact ih
    · rw [heq]
      refine ⟨save_user_storeOk file u pw e ts ih.1 hclean, ?_⟩
      obtain ⟨r, hr⟩ := userRecords_append_user file u pw e ts ih.1 hu hclean
      rw [hr, List.map_append]
      simp only [List.map_cons, List.map_nil]
      rw [List.nodup_append]
      refine ⟨ih.2, List.nodup_singleton u, ?_⟩
      intro a ha hb
      simp only [List.mem_singleton] at hb
      subst hb
      exact dictFind_none_not_mem file a hnone ha

end P

/-! ## Lemmas: app.py account store -/

theorem hash_password_ne_nil (pw : List Char) : hash_password pw ≠ [] := by
  unfold hash_password sha256Hex sha256Words word8Hex
  simp

namespace A

theorem userLine_noNLCR_app (u pw : List Char) (hreg : CleanReg u) :
    NoNLCR (u ++ ',' :: hash_password pw) := by
  intro x hx
  simp only [List.mem_append, List.mem_cons, or_assoc] at hx
  rcases hx with h | rfl | h
  · exact ⟨(hreg.1 x h).2.1, (hreg.1 x h).2.2⟩
  · exact ⟨by decide, by decide⟩
  · exact ⟨(hash_password_clean pw x h).2.1, (hash_password_clean pw x h).2.2⟩

theorem userLine_strip_app (u pw : List Char) (hu : u ≠ []) (hreg : CleanReg u) :
    pyStrip (u ++ ',' :: hash_password pw) = u ++ ',' :: hash_password pw := by
  apply pyStrip_eq_self
  · intro x hx
    cases hid : u with
    | nil => exact absurd hid hu
    | cons a as =>
      rw [hid] at hx
      simp only [List.cons_append, List.head?_cons, Option.some.injEq] at hx
      subst hx
      exact hreg.2 a (by rw [hid]; rfl)
  · intro x hx
    rw [List.getLast?_append_cons] at hx
    cases hh : hash_password pw with
    | nil => exact absurd hh (hash_password_ne_nil pw)
    | cons a as =>
      rw [hh, List.getLast?_cons_cons] at hx
      have hmem : x ∈ hash_password pw := by
        rw [hh]
        exact List.mem_of_mem_getLast? (by simp [hx])
      exact hexRange_not_space x (hash_password_chars pw x hmem)

theorem classify_userLine_app (u pw : List Char) (hu : u ≠ []) (hreg : CleanReg u) :
    classifyUserLine (u ++ ',' :: hash_password pw) = some (u, hash_password pw) := by
  have mU : ',' ∉ u := fun hmem => (hreg.1 _ hmem).1 rfl
  have mH : ',' ∉ hash_password pw := fun hmem =>
    hexRange_not_char _ ',' (hash_password_chars pw _ hmem) (by decide) rfl
  unfold classifyUserLine
  rw [userLine_strip_app u pw hu hreg]
  rw [if_pos (by simp)]
  rw [splitOnChar_field _ _ _ mH, splitOnChar_eq_single _ _ mU]
  rfl

theorem load_users_fold_app (lines : List (List Char)) (d0 : List (List Char × List Char)) :
    lines.foldl
      (fun acc line =>
        match classifyUserLine line with
        | none => acc
        | some (u, p) => dictInsert acc u p) d0 =
    (lines.filterMap classifyUserLine).foldl (fun d p => dictInsert d p.1 p.2) d0 := by
  induction lines generalizing d0 with
  | nil => simp
  | cons line rest ih =>
    simp only [List.foldl_cons, List.filterMap_cons]
    cases h : classifyUserLine line with
    | none => simp only [h]; rw [ih]
    | some p =>
      obtain ⟨pu, pp⟩ := p
      simp only [h]
      rw [ih]
      simp

theorem userRecords_eq_app (file : Option (List Char)) :
    userRecords file = (linesOf (contentOf file)).filterMap classifyUserLine := rfl

theorem load_users_some_app (content : List Char) :
    load_users (some content) =
      (userRecords (some content)).foldl (fun d p => dictInsert d p.1 p.2) [] := by
  have e : load_users (some content) =
      (linesOf content).foldl
        (fun acc line =>
          match classifyUserLine line with
          | none => acc
          | some (u, p) => dictInsert acc u p) [] := rfl
  rw [e, load_users_fold_app]
  rfl

theorem dictFind_load_users_app (file : Option (List Char)) (u : List Char) :
    dictFind? (load_users file) u =
      ((userRecords file).reverse.find? (fun p => p.1 == u)).map Prod.snd := by
  cases file with
  | none => rfl
  | some content =>
    rw [load_users_some_app, dictFind?_foldl_insert]
    cases hf : (userRecords (some content)).reverse.find? (fun p => p.1 == u) with
    | some p => rfl
    | none => rfl

theorem dictFind_none_not_mem_app (file : Option (List Char)) (u : List Char)
    (h : dictFind? (load_users file) u = none) :
    u ∉ (userRecords file).map Prod.fst := by
  rw [dictFind_load_users_app] at h
  have hfind : (userRecords file).reverse.find? (fun p => p.1 == u) = none :=
    Option.map_eq_none.mp h
  intro hmem
  rcases List.mem_map.mp hmem with ⟨p, hp, hpu⟩
  have := List.find?_eq_none.mp hfind p (List.mem_reverse.mpr hp)
  simp [hpu] at this

theorem userRecords_append_user_app (file : Option (List Char)) (u pw : List Char)
    (hs : StoreOk (contentOf file)) (hu : u ≠ []) (hreg : CleanReg u) :
    userRecords (save_user file u pw) =
      userRecords file ++ [(u, hash_password pw)] := by
  rw [userRecords_eq_app, userRecords_eq_app]
  unfold save_user appendText
  rw [show contentOf (some (contentOf file ++ (u ++ ',' :: hash_password pw ++ ['\n']))) =
      contentOf file ++ ((u ++ ',' :: hash_password pw) ++ ['\n']) from rfl]
  rw [filterMap_linesOf_append _ rfl _ _ hs (userLine_noNLCR_app u pw hreg)]
  rw [classify_userLine_app u pw hu hreg]
  rfl

theorem save_user_storeOk_app (file : Option (List Char)) (u pw : List Char)
    (hs : StoreOk (contentOf file)) (hreg : CleanReg u) :
    StoreOk (contentOf (save_user file u pw)) := by
  unfold save_user appendText
  rw [show contentOf (some (contentOf file ++ (u ++ ',' :: hash_password pw ++ ['\n']))) =
      contentOf file ++ ((u ++ ',' :: hash_password pw) ++ ['\n']) from rfl]
  exact storeOk_append _ _ hs (userLine_noNLCR_app u pw hreg)

theorem signup_cases (file : Option (List Char)) (u pw c : List Char) :
    (signup file u pw c).1 = file ∨
    ((signup file u pw c).1 = save_user file u pw ∧
      u ≠ [] ∧ dictFind? (load_users file) u = none) := by
  unfold signup
  split
  · exact Or.inl rfl
  · split
    · exact Or.inl rfl
    · split
      · exact Or.inl rfl
      · split
        · exact Or.inl rfl
        · rename_i h1 h2 h3 h4
          refine Or.inr ⟨rfl, ?_, Option.not_isSome_iff_eq_none.mp h4⟩
          intro hu
          exact h1 (by simp [hu])

theorem reached_invariant_app (file : Option (List Char)) (h : Reached file) :
    StoreOk (contentOf file) ∧ ((userRecords file).map Prod.fst).Nodup := by
  induction h with
  | init => exact ⟨storeOk_nil, by simp [userRecords, linesOf, univNewlines, splitOnChar,
      classifyUserLine, pyStrip, contentOf]⟩
  | step file u pw c hre hclean ih =>
    rcases signup_cases file u pw c with heq | ⟨heq, hu, hnone⟩
    · rw [heq]; exact ih
    · rw [heq]
      refine ⟨save_user_storeOk_app file u pw ih.1 hclean, ?_⟩
      rw [userRecords_append_user_app file u pw ih.1 hu hclean, List.map_append]
      simp only [List.map_cons, List.map_nil]
      rw [List.nodup_append]
      refine ⟨ih.2, List.nodup_singleton u, ?_⟩
      intro a ha hb
      simp only [List.mem_singleton] at hb
      subst hb
      exact dictFind_none_not_mem_app file a hnone ha

end A

/-! ## Lemmas: the JSON string codec -/

theorem hexVal?_hexDigit : ∀ d : Nat, d < 16 → A.hexVal? (hexDigit d) = some d := by
  decide

namespace A

theorem parseStrBody_lit (c : Char) (rest : List Char)
    (h1 : ¬c = '"') (h2 : ¬c = '\\') (h3 : ¬c.toNat < 0x20) :
    parseStrBody (c :: rest) = (parseStrBody rest).map (fun p => (c :: p.1, p.2)) := by
  rw [parseStrBody.eq_def]
  split <;> simp_all

theorem parseStrBody_u4 (a b c d : Char) (x1 x2 x3 x4 : Nat) (rest : List Char)
    (ha : hexVal? a = some x1) (hb : hexVal? b = some x2)
    (hc : hexVal? c = some x3) (hd : hexVal? d = some x4)
    (hn1 : ¬(0xd800 ≤ x1 * 4096 + x2 * 256 + x3 * 16 + x4 ∧
             x1 * 4096 + x2 * 256 + x3 * 16 + x4 ≤ 0xdbff)) :
    parseStrBody ('\\' :: 'u' :: a :: b :: c :: d :: rest) =
      (parseStrBody rest).map
        (fun p => (Char.ofNat (x1 * 4096 + x2 * 256 + x3 * 16 + x4) :: p.1, p.2)) := by
  rw [parseStrBody.eq_def]
  split
  · simp_all
  · simp_all
  · rename_i a2 b2 c2 d2 rest2 heq
    injection heq with e1 heq; injection heq with e2 heq; injection heq with e3 heq
    injection heq with e4 heq; injection heq with e5 heq; injection heq with e6 heq
    subst e3; subst e4; subst e5; subst e6; subst heq
    rw [ha, hb, hc, hd]
    simp only []
    rw [if_neg hn1]
  · exfalso
    rename_i e1 r1 hno heq
    injection heq with h0 h2
    injection h2 with he hr
    exact hno _ _ _ _ _ he.symm hr.symm
  · exfalso
    rename_i y1 y2 y3 y4
    injection y4 with hcq hr
    exact y3 _ _ hcq.symm hr.symm

theorem parseStrBody_u8 (a b c d g1 g2 g3 g4 : Char) (x1 x2 x3 x4 y1 y2 y3 y4 : Nat)
    (rest2 : List Char)
    (ha : hexVal? a = some x1) (hb : hexVal? b = some x2)
    (hc : hexVal? c = some x3) (hd : hexVal? d = some x4)
    (hg1 : hexVal? g1 = some y1) (hg2 : hexVal? g2 = some y2)
    (hg3 : hexVal? g3 = some y3) (hg4 : hexVal? g4 = some y4)
    (hhi : 0xd800 ≤ x1 * 4096 + x2 * 256 + x3 * 16 + x4 ∧
           x1 * 4096 + x2 * 256 + x3 * 16 + x4 ≤ 0xdbff)
    (hlo : 0xdc00 ≤ y1 * 4096 + y2 * 256 + y3 * 16 + y4 ∧
           y1 * 4096 + y2 * 256 + y3 * 16 + y4 ≤ 0xdfff) :
    parseStrBody ('\\' :: 'u' :: a :: b :: c :: d ::
        ('\\' :: 'u' :: g1 :: g2 :: g3 :: g4 :: rest2)) =
      (parseStrBody rest2).map
        (fun p => (Char.ofNat (0x10000 +
          (x1 * 4096 + x2 * 256 + x3 * 16 + x4 - 0xd800) * 0x400 +
          (y1 * 4096 + y2 * 256 + y3 * 16 + y4 - 0xdc00)) :: p.1, p.2)) := by
  rw [parseStrBody.eq_def]
  split
  · simp_all
  · simp_all
  · rename_i a2 b2 c2 d2 rest3 heq
    injection heq with e1 heq; injection heq with e2 heq; injection heq with e3 heq
    injection heq with e4 heq; injection heq with e5 heq; injection heq with e6 heq
    subst e3; subst e4; subst e5; subst e6; subst heq
    rw [ha, hb, hc, hd]
    simp only []
    rw [if_pos hhi]
    split
    · rename_i ov1 ov2 ov3 ov4 z1 z2 z3 z4 he1 he2 he3 he4
      rw [hg1] at he1
      rw [hg2] at he2
      rw [hg3] at he3
      rw [hg4] at he4
      injection he1 with he1; injection he2 with he2
      injection he3 with he3; injection he4 with he4
      subst he1; subst he2; subst he3; subst he4
      rw [if_pos hlo]
    · rename_i hno
      exfalso
      exact hno y1 y2 y3 y4 hg1 hg2 hg3 hg4
  · exfalso
    rename_i e1 r1 hno heq
    injection heq with h0 h2
    injection h2 with he hr
    exact hno _ _ _ _ _ he.symm hr.symm
  · exfalso
    rename_i z1 z2 z3 z4
    injection z4 with hcq hr
    exact z3 _ _ hcq.symm hr.symm

theorem parseStrBody_uEsc (n : Nat) (REST : List Char)
    (hlt : n < 0x10000) (hval : n < 0xd800 ∨ 0xdfff < n) :
    parseStrBody (uEsc n ++ REST) =
      (parseStrBody REST).map (fun p => (Char.ofNat n :: p.1, p.2)) := by
  have e : uEsc n ++ REST =
      '\\' :: 'u' :: hexDigit (n / 0x1000 % 16) :: hexDigit (n / 0x100 % 16) ::
        hexDigit (n / 0x10 % 16) :: hexDigit (n % 16) :: REST := by
    unfold uEsc
    simp
  rw [e, parseStrBody_u4 _ _ _ _ _ _ _ _ _
    (hexVal?_hexDigit _ (Nat.mod_lt _ (by norm_num)))
    (hexVal?_hexDigit _ (Nat.mod_lt _ (by norm_num)))
    (hexVal?_hexDigit _ (Nat.mod_lt _ (by norm_num)))
    (hexVal?_hexDigit _ (Nat.mod_lt _ (by norm_num)))
    (by omega)]
  have harith : n / 0x1000 % 16 * 4096 + n / 0x100 % 16 * 256 +
      n / 0x10 % 16 * 16 + n % 16 = n := by omega
  rw [harith]

theorem parseStrBody_surrogate (c : Char) (REST : List Char) (h : 0x10000 ≤ c.toNat) :
    parseStrBody (uEsc (0xd800 + (c.toNat - 0x10000) / 0x400) ++
      (uEsc (0xdc00 + (c.toNat - 0x10000) % 0x400) ++ REST)) =
      (parseStrBody REST).map (fun p => (c :: p.1, p.2)) := by
  have hval : c.toNat < 0x110000 := by
    rcases c.valid with hv | ⟨hv1, hv2⟩
    · have hv2 : c.toNat < 0xd800 := hv
      omega
    · exact hv2
  have e : uEsc (0xd800 + (c.toNat - 0x10000) / 0x400) ++
      (uEsc (0xdc00 + (c.toNat - 0x10000) % 0x400) ++ REST) =
      '\\' :: 'u' :: hexDigit ((0xd800 + (c.toNat - 0x10000) / 0x400) / 0x1000 % 16) ::
        hexDigit ((0xd800 + (c.toNat - 0x10000) / 0x400) / 0x100 % 16) ::
        hexDigit ((0xd800 + (c.toNat - 0x10000) / 0x400) / 0x10 % 16) ::
        hexDigit ((0xd800 + (c.toNat - 0x10000) / 0x400) % 16) ::
        ('\\' :: 'u' :: hexDigit ((0xdc00 + (c.toNat - 0x10000) % 0x400) / 0x1000 % 16) ::
          hexDigit ((0xdc00 + (c.toNat - 0x10000) % 0x400) / 0x100 % 16) ::
          hexDigit ((0xdc00 + (c.toNat - 0x10000) % 0x400) / 0x10 % 16) ::
          hexDigit ((0xdc00 + (c.toNat - 0x10000) % 0x400) % 16) :: REST) := by
    unfold uEsc
    simp
  rw [e, parseStrBody_u8 _ _ _ _ _ _ _ _ _ _ _ _ _ _ _ _ _
    (hexVal?_hexDigit _ (Nat.mod_lt _ (by norm_num)))
    (hexVal?_hexDigit _ (Nat.mod_lt _ (by norm_num)))
    (hexVal?_hexDigit _ (Nat.mod_lt _ (by norm_num)))
    (hexVal?_hexDigit _ (Nat.mod_lt _ (by norm_num)))
    (hexVal?_hexDigit _ (Nat.mod_lt _ (by norm_num)))
    (hexVal?_hexDigit _ (Nat.mod_lt _ (by norm_num)))
    (hexVal?_hexDigit _ (Nat.mod_lt _ (by norm_num)))
    (hexVal?_hexDigit _ (Nat.mod_lt _ (by norm_num)))
    (by constructor <;> omega) (by constructor <;> omega)]
  have harith : 0x10000 +
      ((0xd800 + (c.toNat - 0x10000) / 0x400) / 0x1000 % 16 * 4096 +
       (0xd800 + (c.toNat - 0x10000) / 0x400) / 0x100 % 16 * 256 +
       (0xd800 + (c.toNat - 0x10000) / 0x400) / 0x10 % 16 * 16 +
       (0xd800 + (c.toNat - 0x10000) / 0x400) % 16 - 0xd800) * 0x400 +
      ((0xdc00 + (c.toNat - 0x10000) % 0x400) / 0x1000 % 16 * 4096 +
       (0xdc00 + (c.toNat - 0x10000) % 0x400) / 0x100 % 16 * 256 +
       (0xdc00 + (c.toNat - 0x10000) % 0x400) / 0x10 % 16 * 16 +
       (0xdc00 + (c.toNat - 0x10000) % 0x400) % 16 - 0xdc00) = c.toNat := by
    omega
  rw [harith, Char.ofNat_toNat]

end A

/-! ## Lemmas: the JSON string rendering -/

namespace A

theorem parseStrBody_escChar (c : Char) (REST : List Char) :
    parseStrBody (escStrChar c ++ REST) =
      (parseStrBody REST).map (fun p => (c :: p.1, p.2)) := by
  unfold escStrChar
  by_cases h1 : c = '"'
  · subst h1; rw [if_pos rfl, parseStrBody.eq_def]; rfl
  rw [if_neg h1]
  by_cases h2 : c = '\\'
  · subst h2; rw [if_pos rfl, parseStrBody.eq_def]; rfl
  rw [if_neg h2]
  by_cases h3 : c = '\n'
  · subst h3; rw [if_pos rfl, parseStrBody.eq_def]; rfl
  rw [if_neg h3]
  by_cases h4 : c = '\t'
  · subst h4; rw [if_pos rfl, parseStrBody.eq_def]; rfl
  rw [if_neg h4]
  by_cases h5 : c = '\r'
  · subst h5; rw [if_pos rfl, parseStrBody.eq_def]; rfl
  rw [if_neg h5]
  by_cases h6 : c = '\x08'
  · subst h6; rw [if_pos rfl, parseStrBody.eq_def]; rfl
  rw [if_neg h6]
  by_cases h7 : c = '\x0c'
  · subst h7; rw [if_pos rfl, parseStrBody.eq_def]; rfl
  rw [if_neg h7]
  by_cases h8 : 0x20 ≤ c.toNat ∧ c.toNat ≤ 0x7e
  · rw [if_pos h8]
    exact parseStrBody_lit c REST h1 h2 (by omega)
  rw [if_neg h8]
  by_cases h9 : c.toNat < 0x10000
  · rw [if_pos h9]
    have hval : c.toNat < 0xd800 ∨ 0xdfff < c.toNat := by
      rcases c.valid with hv | ⟨hv1, hv2⟩
      · left; exact hv
      · right; exact hv1
    rw [parseStrBody_uEsc c.toNat REST h9 hval, Char.ofNat_toNat]
  · rw [if_neg h9]
    rw [List.append_assoc]
    exact parseStrBody_surrogate c REST (by omega)

theorem parse_dumpStr_body (s : List Char) (rest : List Char) :
    parseStrBody ((s.map escStrChar).flatten ++ '"' :: rest) = some (s, rest) := by
  induction s with
  | nil =>
    show parseStrBody ('"' :: rest) = some ([], rest)
    rw [parseStrBody.eq_def]
    rfl
  | cons c s2 ih =>
    show parseStrBody ((escStrChar c ++ (s2.map escStrChar).flatten) ++ '"' :: rest) = _
    rw [List.append_assoc, parseStrBody_escChar, ih]
    rfl

end A

/-! ## Lemmas: the JSON number codec -/

theorem digitChar_range (n : Nat) : '0' ≤ digitChar n ∧ digitChar n ≤ '9' := by
  have h : ∀ d : Nat, d < 10 → '0' ≤ digitChar d ∧ digitChar d ≤ '9' := by decide
  have e : digitChar n = digitChar (n % 10) := by
    unfold digitChar
    congr 1
    omega
  rw [e]
  exact h _ (Nat.mod_lt _ (by norm_num))

namespace A

theorem natLexAux_digits (fuel : Nat) : ∀ (n : Nat), ∀ x ∈ natLexAux fuel n,
    '0' ≤ x ∧ x ≤ '9' := by
  induction fuel with
  | zero => intro n x hx; simp [natLexAux] at hx
  | succ f ih =>
    intro n x hx
    cases n with
    | zero => simp [natLexAux] at hx
    | succ m =>
      rw [show natLexAux (f + 1) (m + 1) =
            digitChar ((m + 1) % 10) :: natLexAux f ((m + 1) / 10) from rfl] at hx
      rcases List.mem_cons.mp hx with rfl | h
      · exact digitChar_range _
      · exact ih _ x h

theorem natLex_digits (n : Nat) : ∀ x ∈ natLex n, '0' ≤ x ∧ x ≤ '9' := by
  intro x hx
  unfold natLex at hx
  split at hx
  · simp at hx
    subst hx
    decide
  · exact natLexAux_digits n n x (List.mem_reverse.mp hx)

theorem natLexAux_getLast (fuel : Nat) : ∀ (n : Nat), 1 ≤ n → n ≤ fuel →
    ∃ d ds, natLexAux fuel n = ds ++ [d] ∧ '1' ≤ d ∧ d ≤ '9' := by
  induction fuel with
  | zero => intro n h1 h2; omega
  | succ f ih =>
    intro n h1 h2
    cases n with
    | zero => omega
    | succ m =>
      rw [show natLexAux (f + 1) (m + 1) =
            digitChar ((m + 1) % 10) :: natLexAux f ((m + 1) / 10) from rfl]
      by_cases hm : (m + 1) / 10 = 0
      · have e : natLexAux f ((m + 1) / 10) = [] := by
          rw [hm]
          cases f <;> rfl
        refine ⟨digitChar ((m + 1) % 10), [], by rw [e]; rfl, ?_, ?_⟩
        · have h10 : m + 1 < 10 := by omega
          have : (m + 1) % 10 = m + 1 := Nat.mod_eq_of_lt h10
          have hd : ∀ d : Nat, 1 ≤ d → d < 10 → '1' ≤ digitChar d ∧ digitChar d ≤ '9' := by
            decide
          rw [this]
          exact (hd _ (by omega) h10).1
        · exact (digitChar_range _).2
      · obtain ⟨d, ds, he, hd1, hd2⟩ := ih ((m + 1) / 10) (by omega) (by omega)
        exact ⟨d, digitChar ((m + 1) % 10) :: ds, by rw [he]; simp, hd1, hd2⟩

theorem natLex_head (n : Nat) (h : 1 ≤ n) :
    ∃ d ds, natLex n = d :: ds ∧ '1' ≤ d ∧ d ≤ '9' := by
  unfold natLex
  rw [if_neg (by omega)]
  obtain ⟨d, ds, he, hd1, hd2⟩ := natLexAux_getLast n n h (le_refl n)
  exact ⟨d, ds.reverse, by rw [he]; simp, hd1, hd2⟩

theorem takeDigits_spec (ds rest : List Char)
    (hds : ∀ x ∈ ds, '0' ≤ x ∧ x ≤ '9')
    (hrest : ∀ x, rest.head? = some x → ¬('0' ≤ x ∧ x ≤ '9')) :
    takeDigits (ds ++ rest) = (ds, rest) := by
  induction ds with
  | nil =>
    cases rest with
    | nil => rfl
    | cons r rs =>
      rw [List.nil_append, takeDigits]
      rw [if_neg (hrest r rfl)]
  | cons d ds2 ih =>
    rw [List.cons_append, takeDigits,
      if_pos (hds d (List.mem_cons_self _ _)),
      ih fun x hx => hds x (List.mem_cons_of_mem _ hx)]

theorem digitsToNat_append (xs : List Char) (d : Char) :
    digitsToNat (xs ++ [d]) = digitsToNat xs * 10 + (d.toNat - 48) := by
  unfold digitsToNat
  rw [List.foldl_append]
  rfl

theorem digitsToNat_natLexAux (fuel : Nat) : ∀ (n : Nat), n ≤ fuel →
    digitsToNat (natLexAux fuel n).reverse = n := by
  induction fuel with
  | zero =>
    intro n h
    have : n = 0 := by omega
    subst this
    rfl
  | succ f ih =>
    intro n h
    cases n with
    | zero => rfl
    | succ m =>
      rw [show natLexAux (f + 1) (m + 1) =
            digitChar ((m + 1) % 10) :: natLexAux f ((m + 1) / 10) from rfl,
        List.reverse_cons, digitsToNat_append, ih ((m + 1) / 10) (by omega)]
      have hd : (digitChar ((m + 1) % 10)).toNat = 48 + (m + 1) % 10 := by
        have h10 : ∀ d : Nat, d < 10 → (digitChar d).toNat = 48 + d := by decide
        rw [show digitChar ((m + 1) % 10) = digitChar ((m + 1) % 10 % 10) from by
          unfold digitChar; congr 1; omega]
        rw [h10 _ (Nat.mod_lt _ (by norm_num))]
        omega
      rw [hd]
      omega

theorem digitsToNat_natLex (n : Nat) : digitsToNat (natLex n) = n := by
  unfold natLex
  split
  · rename_i h
    subst h
    rfl
  · exact digitsToNat_natLexAux n n (le_refl n)

end A

namespace A

theorem parseFracPart_delim (rest : List Char)
    (h : ∀ x, rest.head? = some x → ¬x = '.') :
    parseFracPart rest = none := by
  cases rest with
  | nil => rfl
  | cons r rs =>
    rw [parseFracPart.eq_def]
    split
    · rename_i rest2 heq
      injection heq with h1 h2
      exact absurd h1 (h r rfl)
    · rfl

theorem parseExpPart_delim (rest : List Char)
    (h : ∀ x, rest.head? = some x → ¬x = 'e' ∧ ¬x = 'E') :
    parseExpPart rest = none := by
  cases rest with
  | nil => rfl
  | cons r rs =>
    obtain ⟨hn1, hn2⟩ := h r rfl
    rw [parseExpPart.eq_def]
    split
    · rename_i e s rest2 heq
      injection heq with h1 h2
      subst h1
      rw [if_neg (by simp [hn1, hn2])]
    · rename_i e heq
      injection heq with h1 h2
      subst h1
      rw [if_neg (by simp [hn1, hn2])]
    · rfl

theorem parseIntPart_natLex (m : Nat) (rest : List Char)
    (hrest : ∀ x, rest.head? = some x → ¬('0' ≤ x ∧ x ≤ '9')) :
    parseIntPart (natLex m ++ rest) = some (natLex m, rest) := by
  by_cases hm : m = 0
  · subst hm
    show parseIntPart ('0' :: rest) = some (['0'], rest)
    rw [parseIntPart.eq_def]
    split
    · simp_all
    · rename_i c cs heq
      injection heq with h1 h2
      subst h1
      subst h2
      rw [if_pos rfl]
  · obtain ⟨d, ds, he, hd1, hd2⟩ := natLex_head m (by omega)
    have hdig := natLex_digits m
    rw [he] at hdig ⊢
    have hlo : 49 ≤ d.toNat := Char.le_def.mp hd1
    rw [List.cons_append, parseIntPart.eq_def]
    split
    · simp_all
    · rename_i c cs heq
      injection heq with h1 h2
      subst h1
      subst h2
      rw [if_neg (fun he2 => absurd (he2 ▸ hlo) (by decide)), if_pos ⟨hd1, hd2⟩]
      rw [takeDigits_spec ds rest
        (fun x hx => hdig x (List.mem_cons_of_mem _ hx)) hrest]

theorem parseNumber_intLex (n : Int) (rest : List Char) (hrest : DelimNum rest) :
    parseNumber (intLex n ++ rest) = some (J.int n, rest) := by
  have hfr : parseFracPart rest = none :=
    parseFracPart_delim rest fun x hx => ((hrest x hx).2.1)
  have hex : parseExpPart rest = none :=
    parseExpPart_delim rest fun x hx => ⟨(hrest x hx).2.2.1, (hrest x hx).2.2.2.1⟩
  have hdigr : ∀ x, rest.head? = some x → ¬('0' ≤ x ∧ x ≤ '9') :=
    fun x hx => (hrest x hx).1
  have hip := parseIntPart_natLex n.natAbs rest hdigr
  obtain ⟨d, ds, he, hd0, hd9⟩ : ∃ d ds, natLex n.natAbs = d :: ds ∧ '0' ≤ d ∧ d ≤ '9' := by
    by_cases hm : n.natAbs = 0
    · exact ⟨'0', [], by rw [hm]; rfl, by decide, by decide⟩
    · obtain ⟨d, ds, he2, h1, h2⟩ := natLex_head n.natAbs (by omega)
      exact ⟨d, ds, he2, le_trans (by decide) h1, h2⟩
  have hval : digitsToNat (natLex n.natAbs) = n.natAbs := digitsToNat_natLex n.natAbs
  rw [he] at hip hval
  rw [List.cons_append] at hip
  unfold intLex
  by_cases hn : n < 0
  · rw [if_pos hn, List.cons_append, he, List.cons_append]
    unfold parseNumber
    split
    · rename_i r heq
      injection heq with h1 h2
      subst h2
      simp only [hip, hfr, hex, hval]
      rw [if_pos (by simp), if_pos trivial]
      have hv : -Int.ofNat n.natAbs = n := by rw [Int.ofNat_eq_natCast]; omega
      rw [hv]
    · rename_i heq2
      exact absurd rfl (heq2 (d :: (ds ++ rest)))
  · rw [if_neg hn, he, List.cons_append]
    have hne : ¬d = '-' := by
      have h48 := Char.le_def.mp hd0
      intro he2
      rw [he2] at h48
      exact absurd h48 (by decide)
    unfold parseNumber
    split
    · rename_i r heq
      injection heq with h1 h2
      exact absurd h1 hne
    · simp only [hip, hfr, hex, hval]
      rw [if_pos (by simp), if_neg (by decide)]
      have hv : Int.ofNat n.natAbs = n := by rw [Int.ofNat_eq_natCast]; omega
      rw [hv]

theorem parseVal_digit (f : Nat) (c : Char) (rest : List Char)
    (h0 : '0' ≤ c) (h9 : c ≤ '9') :
    parseVal (f + 1) (c :: rest) = parseNumber (c :: rest) := by
  have hlo : 48 ≤ c.toNat := Char.le_def.mp h0
  have hhi : c.toNat ≤ 57 := Char.le_def.mp h9
  simp only [parseVal]
  rw [if_neg (fun he => absurd (he ▸ hlo) (by decide)),
      if_neg (fun he => absurd (he ▸ hhi) (by decide)),
      if_neg (fun he => absurd (he ▸ hhi) (by decide)),
      if_neg (fun he => absurd (he ▸ hhi) (by decide)),
      if_neg (fun he => absurd (he ▸ hhi) (by decide)),
      if_neg (fun he => absurd (he ▸ hhi) (by decide)),
      if_neg (fun he => absurd (he ▸ hhi) (by decide)),
      if_neg (fun he => absurd (he ▸ hhi) (by decide)),
      if_neg (fun he => absurd (he ▸ hlo) (by decide))]

theorem parseVal_neg_digit (f : Nat) (d : Char) (rest : List Char)
    (h9 : d ≤ '9') :
    parseVal (f + 1) ('-' :: d :: rest) = parseNumber ('-' :: d :: rest) := by
  have hhi : d.toNat ≤ 57 := Char.le_def.mp h9
  simp only [parseVal]
  rw [if_neg (by decide), if_neg (by decide), if_neg (by decide), if_neg (by decide),
      if_neg (by decide), if_neg (by decide), if_neg (by decide), if_neg (by decide),
      if_pos trivial]
  split
  · rename_i r heq
    injection heq with h1 h2
    exact absurd (h1 ▸ hhi) (by decide)
  · rfl

end A

namespace A

theorem uEsc_chars (n : Nat) : ∀ x ∈ uEsc n, 0x20 ≤ x.toNat ∧ x.toNat ≤ 0x7e := by
  have hdigit : ∀ m : Nat, m < 16 →
      0x20 ≤ (hexDigit m).toNat ∧ (hexDigit m).toNat ≤ 0x7e := by decide
  intro x hx
  unfold uEsc at hx
  simp only [List.mem_cons, List.not_mem_nil, or_false] at hx
  rcases hx with rfl | rfl | rfl | rfl | rfl | rfl
  · exact ⟨by decide, by decide⟩
  · exact ⟨by decide, by decide⟩
  · exact hdigit _ (Nat.mod_lt _ (by omega))
  · exact hdigit _ (Nat.mod_lt _ (by omega))
  · exact hdigit _ (Nat.mod_lt _ (by omega))
  · exact hdigit _ (Nat.mod_lt _ (by omega))

theorem escStrChar_chars (c : Char) :
    ∀ x ∈ escStrChar c, 0x20 ≤ x.toNat ∧ x.toNat ≤ 0x7e := by
  intro x hx
  unfold escStrChar at hx
  split at hx
  · simp only [List.mem_cons, List.not_mem_nil, or_false] at hx
    rcases hx with rfl | rfl <;> exact ⟨by decide, by decide⟩
  · split at hx
    · simp only [List.mem_cons, List.not_mem_nil, or_false] at hx
      rcases hx with rfl | rfl <;> exact ⟨by decide, by decide⟩
    · split at hx
      · simp only [List.mem_cons, List.not_mem_nil, or_false] at hx
        rcases hx with rfl | rfl <;> exact ⟨by decide, by decide⟩
      · split at hx
        · simp only [List.mem_cons, List.not_mem_nil, or_false] at hx
          rcases hx with rfl | rfl <;> exact ⟨by decide, by decide⟩
        · split at hx
          · simp only [List.mem_cons, List.not_mem_nil, or_false] at hx
            rcases hx with rfl | rfl <;> exact ⟨by decide, by decide⟩
          · split at hx
            · simp only [List.mem_cons, List.not_mem_nil, or_false] at hx
              rcases hx with rfl | rfl <;> exact ⟨by decide, by decide⟩
            · split at hx
              · simp only [List.mem_cons, List.not_mem_nil, or_false] at hx
                rcases hx with rfl | rfl <;> exact ⟨by decide, by decide⟩
              · split at hx
                · rename_i hrange
                  simp only [List.mem_cons, List.not_mem_nil, or_false] at hx
                  subst hx
                  exact hrange
                · split at hx
                  · exact uEsc_chars _ x hx
                  · rcases List.mem_append.mp hx with h | h
                    · exact uEsc_chars _ x h
                    · exact uEsc_chars _ x h

theorem dumpStr_chars (s : List Char) :
    ∀ x ∈ dumpStr s, 0x20 ≤ x.toNat ∧ x.toNat ≤ 0x7e := by
  intro x hx
  unfold dumpStr at hx
  simp only [List.mem_cons, List.mem_append, List.not_mem_nil, or_false] at hx
  rcases hx with (rfl | h) | rfl
  · exact ⟨by decide, by decide⟩
  · rcases List.mem_flatten.mp h with ⟨chars, hchars, hxin⟩
    rcases List.mem_map.mp hchars with ⟨c, _, rfl⟩
    exact escStrChar_chars c x hxin
  · exact ⟨by decide, by decide⟩


theorem intLex_chars (n : Int) : ∀ x ∈ intLex n, 0x20 ≤ x.toNat ∧ x.toNat ≤ 0x7e := by
  have hnat : ∀ m : Nat, ∀ y ∈ natLex m, 0x20 ≤ y.toNat ∧ y.toNat ≤ 0x7e := by
    intro m y hy
    have h := natLex_digits m y hy
    have h1 : 48 ≤ y.toNat := Char.le_def.mp h.1
    have h2 : y.toNat ≤ 57 := Char.le_def.mp h.2
    exact ⟨by omega, by omega⟩
  intro x hx
  unfold intLex at hx
  split at hx
  · rcases List.mem_cons.mp hx with rfl | h
    · exact ⟨by decide, by decide⟩
    · exact hnat _ x h
  · exact hnat _ x hx

mutual
theorem dumps_chars : ∀ (j : J), jwf j = true →
    ∀ x ∈ dumps j, 0x20 ≤ x.toNat ∧ x.toNat ≤ 0x7e
  | .null, _ => by decide
  | .bool true, _ => by decide
  | .bool false, _ => by decide
  | .int n, _ => intLex_chars n
  | .numLex s, hwf => by simp [jwf] at hwf
  | .str s, _ => dumpStr_chars s
  | .arr .nil, _ => by decide
  | .arr (.cons x xs), hwf => by
    have h : jwf x = true ∧ jlwf xs = true := by
      simp [jwf, jlwf, Bool.and_eq_true] at hwf
      exact hwf
    intro y hy
    simp only [dumps, List.mem_cons, List.mem_append, List.not_mem_nil, or_false,
      or_assoc] at hy
    rcases hy with rfl | hy | hy | rfl
    · exact ⟨by decide, by decide⟩
    · exact dumps_chars x h.1 y hy
    · exact dumpsArrTail_chars xs h.2 y hy
    · exact ⟨by decide, by decide⟩
  | .obj .nil, _ => by decide
  | .obj (.cons k v ms), hwf => by
    have h : jwf v = true ∧ jmwf ms = true := by
      simp [jwf, jmwf, Bool.and_eq_true] at hwf
      exact ⟨hwf.1.1, hwf.1.2⟩
    intro y hy
    simp only [dumps, List.mem_cons, List.mem_append, List.not_mem_nil, or_false,
      or_assoc] at hy
    rcases hy with rfl | hy | rfl | rfl | hy | hy | rfl
    · exact ⟨by decide, by decide⟩
    · exact dumpStr_chars k y hy
    · exact ⟨by decide, by decide⟩
    · exact ⟨by decide, by decide⟩
    · exact dumps_chars v h.1 y hy
    · exact dumpsObjTail_chars ms h.2 y hy
    · exact ⟨by decide, by decide⟩
theorem dumpsArrTail_chars : ∀ (xs : JList), jlwf xs = true →
    ∀ x ∈ dumpsArrTail xs, 0x20 ≤ x.toNat ∧ x.toNat ≤ 0x7e
  | .nil, _ => by decide
  | .cons x xs, hwf => by
    have h : jwf x = true ∧ jlwf xs = true := by
      simp [jlwf, Bool.and_eq_true] at hwf
      exact hwf
    intro y hy
    simp only [dumpsArrTail, List.mem_cons, List.mem_append, or_assoc] at hy
    rcases hy with rfl | rfl | hy | hy
    · exact ⟨by decide, by decide⟩
    · exact ⟨by decide, by decide⟩
    · exact dumps_chars x h.1 y hy
    · exact dumpsArrTail_chars xs h.2 y hy
theorem dumpsObjTail_chars : ∀ (ms : JMembers), jmwf ms = true →
    ∀ x ∈ dumpsObjTail ms, 0x20 ≤ x.toNat ∧ x.toNat ≤ 0x7e
  | .nil, _ => by decide
  | .cons k v ms, hwf => by
    have h : jwf v = true ∧ jmwf ms = true := by
      simp [jmwf, Bool.and_eq_true] at hwf
      exact hwf
    intro y hy
    simp only [dumpsObjTail, List.mem_cons, List.mem_append, or_assoc] at hy
    rcases hy with rfl | rfl | hy | rfl | rfl | hy | hy
    · exact ⟨by decide, by decide⟩
    · exact ⟨by decide, by decide⟩
    · exact dumpStr_chars k y hy
    · exact ⟨by decide, by decide⟩
    · exact ⟨by decide, by decide⟩
    · exact dumps_chars v h.1 y hy
    · exact dumpsObjTail_chars ms h.2 y hy
end


theorem dumps_head : ∀ (j : J), jwf j = true →
    ∃ c cs, dumps j = c :: cs ∧ headClass c
  | .null, _ => ⟨'n', _, rfl, by decide⟩
  | .bool true, _ => ⟨'t', _, rfl, by decide⟩
  | .bool false, _ => ⟨'f', _, rfl, by decide⟩
  | .numLex s, hwf => by simp [jwf] at hwf
  | .str s, _ => ⟨'"', _, rfl, by decide⟩
  | .arr .nil, _ => ⟨'[', _, rfl, by decide⟩
  | .arr (.cons x xs), _ => ⟨'[', _, rfl, by decide⟩
  | .obj .nil, _ => ⟨lbrace, _, rfl, by decide⟩
  | .obj (.cons k v ms), _ => ⟨lbrace, _, rfl, by decide⟩
  | .int n, _ => by
    show ∃ c cs, intLex n = c :: cs ∧ headClass c
    unfold intLex
    split
    · exact ⟨'-', _, rfl, by decide⟩
    · by_cases hm : n.natAbs = 0
      · rw [hm]
        exact ⟨'0', [], rfl, Or.inr (Or.inr (Or.inr (Or.inr (Or.inr (Or.inr
          (Or.inr ⟨by decide, by decide⟩))))))⟩
      · obtain ⟨d, ds, he, h1, h9⟩ := natLex_head n.natAbs (by omega)
        have h48 : 48 ≤ d.toNat := Nat.le_trans (by decide) (Char.le_def.mp h1 : 49 ≤ d.toNat)
        exact ⟨d, ds, he, Or.inr (Or.inr (Or.inr (Or.inr (Or.inr (Or.inr
          (Or.inr ⟨Char.le_def.mpr h48, h9⟩))))))⟩

theorem headClass_not_ws (c : Char) (h : headClass c) :
    (c = ' ' || c = '\t' || c = '\n' || c = '\r' : Bool) = false := by
  unfold headClass at h
  rcases h with rfl | rfl | rfl | rfl | rfl | rfl | rfl | ⟨h0, h9⟩
  · decide
  · decide
  · decide
  · decide
  · decide
  · decide
  · decide
  · have h1 : 48 ≤ c.toNat := Char.le_def.mp h0
    have hs1 : ¬c = ' ' := fun he => absurd (he ▸ h1) (by decide)
    have hs2 : ¬c = '\t' := fun he => absurd (he ▸ h1) (by decide)
    have hs3 : ¬c = '\n' := fun he => absurd (he ▸ h1) (by decide)
    have hs4 : ¬c = '\r' := fun he => absurd (he ▸ h1) (by decide)
    simp [hs1, hs2, hs3, hs4]

theorem skipWs_cons_of (c : Char) (l : List Char)
    (h : (c = ' ' || c = '\t' || c = '\n' || c = '\r' : Bool) = false) :
    skipWs (c :: l) = c :: l := by
  unfold skipWs
  rw [List.dropWhile_cons, h]
  simp

theorem dumps_skipWs (j : J) (hwf : jwf j = true) (r : List Char) :
    skipWs (dumps j ++ r) = dumps j ++ r := by
  obtain ⟨c, cs, he, hcl⟩ := dumps_head j hwf
  rw [he, List.cons_append, skipWs_cons_of c _ (headClass_not_ws c hcl)]

theorem delimNum_nil : DelimNum [] := fun _ hx => nomatch hx

theorem delimNum_cons (c : Char) (rest : List Char)
    (h : ¬('0' ≤ c ∧ c ≤ '9') ∧ ¬c = '.' ∧ ¬c = 'e' ∧ ¬c = 'E' ∧ ¬c = '-') :
    DelimNum (c :: rest) := by
  intro x hx
  have hcx : c = x := by
    simp only [List.head?_cons, Option.some.injEq] at hx
    exact hx
  subst hcx
  exact h

theorem delimNum_arrTail (xs : JList) (rest : List Char) :
    DelimNum (dumpsArrTail xs ++ ']' :: rest) := by
  cases xs with
  | nil => exact delimNum_cons ']' rest (by decide)
  | cons x xs => exact delimNum_cons ',' _ (by decide)

theorem delimNum_objTail (ms : JMembers) (rest : List Char) :
    DelimNum (dumpsObjTail ms ++ rbrace :: rest) := by
  cases ms with
  | nil => exact delimNum_cons rbrace rest (by decide)
  | cons k v ms => exact delimNum_cons ',' _ (by decide)

theorem mAppend_nil : ∀ acc : JMembers, mAppend acc .nil = acc
  | .nil => rfl
  | .cons k v rest => by simp [mAppend, mAppend_nil rest]

theorem mKeys_append : ∀ a : JMembers, ∀ b : JMembers,
    mKeys (mAppend a b) = mKeys a ++ mKeys b
  | .nil, b => rfl
  | .cons k v rest, b => by simp [mAppend, mKeys, mKeys_append rest b]

theorem mAppend_push : ∀ acc : JMembers, ∀ (k : List Char) (v : J) (ms : JMembers),
    mAppend (mAppend acc (.cons k v .nil)) ms = mAppend acc (.cons k v ms)
  | .nil, k, v, ms => rfl
  | .cons k1 v1 rest, k, v, ms => by simp [mAppend, mAppend_push rest k v ms]

theorem mInsert_append : ∀ acc : JMembers, ∀ (k : List Char) (v : J),
    (mKeys acc).contains k = false →
    mInsert acc k v = mAppend acc (.cons k v .nil)
  | .nil, k, v, _ => rfl
  | .cons k1 v1 rest, k, v, h => by
    simp only [mKeys, List.contains_cons, Bool.or_eq_false_iff] at h
    have hne : ¬k1 = k := by
      intro he
      subst he
      simp at h
    rw [mInsert, if_neg hne, mInsert_append rest k v h.2]
    rfl

theorem contains_false_iff (l : List (List Char)) (a : List Char) :
    l.contains a = false ↔ ¬a ∈ l := by
  rw [show l.contains a = List.elem a l from rfl, List.elem_eq_mem]
  simp

theorem mFold_append : ∀ ms : JMembers, ∀ acc : JMembers,
    keysUnique ms = true →
    (∀ k2 ∈ mKeys ms, (mKeys acc).contains k2 = false) →
    mFold acc ms = mAppend acc ms
  | .nil, acc, _, _ => by rw [mAppend_nil]; rfl
  | .cons k v rest, acc, hu, hdisj => by
    simp only [keysUnique, Bool.and_eq_true, Bool.not_eq_true'] at hu
    have hstep : mFold acc (.cons k v rest) = mFold (mInsert acc k v) rest := rfl
    rw [hstep, mInsert_append acc k v (hdisj k (by simp [mKeys]))]
    rw [mFold_append rest (mAppend acc (.cons k v .nil)) hu.2]
    · exact mAppend_push acc k v rest
    · intro k2 hk2
      rw [mKeys_append, contains_false_iff]
      intro hmem
      rcases List.mem_append.mp hmem with hin | hin
      · exact absurd hin ((contains_false_iff _ _).mp (hdisj k2 (by simp [mKeys, hk2])))
      · have he : k2 = k := by
          simpa [mKeys] using hin
        subst he
        exact absurd hk2 ((contains_false_iff _ _).mp hu.1)

theorem mFold_self (ms : JMembers) (h : keysUnique ms = true) :
    mFold .nil ms = ms := by
  rw [mFold_append ms .nil h]
  · rfl
  · intro k2 _
    rfl

theorem jSize_pos (j : J) : 1 ≤ jSize j := by
  cases j with
  | null => simp [jSize]
  | bool b => cases b <;> simp [jSize]
  | int n => simp [jSize]
  | numLex s => simp [jSize]
  | str s => simp [jSize]
  | arr es => cases es <;> simp [jSize]
  | obj ms => cases ms <;> simp [jSize]

theorem jlSize_pos (xs : JList) : 1 ≤ jlSize xs := by
  cases xs <;> simp [jlSize]

theorem jmSize_pos (ms : JMembers) : 1 ≤ jmSize ms := by
  cases ms <;> simp [jmSize]

theorem headClass_ne_rsq (c : Char) (h : headClass c) : ¬c = ']' := by
  unfold headClass at h
  rcases h with rfl | rfl | rfl | rfl | rfl | rfl | rfl | ⟨h0, h9⟩
  · decide
  · decide
  · decide
  · decide
  · decide
  · decide
  · decide
  · have h57 : c.toNat ≤ 57 := Char.le_def.mp h9
    exact fun he => absurd (he ▸ h57) (by decide)

theorem skipWs_arrTail (xs : JList) (rest : List Char) :
    skipWs (dumpsArrTail xs ++ ']' :: rest) = dumpsArrTail xs ++ ']' :: rest := by
  cases xs with
  | nil => exact skipWs_cons_of ']' rest (by decide)
  | cons x xs => exact skipWs_cons_of ',' _ (by decide)

theorem skipWs_objTail (ms : JMembers) (rest : List Char) :
    skipWs (dumpsObjTail ms ++ rbrace :: rest) = dumpsObjTail ms ++ rbrace :: rest := by
  cases ms with
  | nil => exact skipWs_cons_of rbrace rest (by decide)
  | cons k v ms => exact skipWs_cons_of ',' _ (by decide)

mutual
theorem parseVal_dumps : ∀ (j : J) (rest : List Char) (fuel : Nat),
    jwf j = true → DelimNum rest → jSize j ≤ fuel →
    parseVal fuel (dumps j ++ rest) = some (j, rest)
  | j, _, 0, _, _, hfuel => absurd hfuel (by have := jSize_pos j; omega)
  | .null, rest, f + 1, _, _, _ => rfl
  | .bool true, rest, f + 1, _, _, _ => rfl
  | .bool false, rest, f + 1, _, _, _ => rfl
  | .numLex s, _, f + 1, hwf, _, _ => by simp [jwf] at hwf
  | .int n, rest, f + 1, _, hrest, _ => by
    show parseVal (f + 1) (intLex n ++ rest) = some (J.int n, rest)
    by_cases hn : n < 0
    · have hsh : intLex n = '-' :: natLex n.natAbs := by rw [intLex, if_pos hn]
      obtain ⟨d, ds, he, h1, h9⟩ := natLex_head n.natAbs (by omega)
      rw [hsh, he, List.cons_append, List.cons_append,
        parseVal_neg_digit f d (ds ++ rest) h9]
      rw [← List.cons_append, ← he, ← List.cons_append, ← hsh]
      exact parseNumber_intLex n rest hrest
    · have hsh : intLex n = natLex n.natAbs := by rw [intLex, if_neg hn]
      by_cases hm : n.natAbs = 0
      · rw [hsh, hm]
        show parseVal (f + 1) ('0' :: rest) = some (J.int n, rest)
        rw [parseVal_digit f '0' rest (by decide) (by decide)]
        have hb : parseNumber ('0' :: rest) = parseNumber (intLex n ++ rest) := by
          rw [hsh, hm]
          rfl
        rw [hb]
        exact parseNumber_intLex n rest hrest
      · obtain ⟨d, ds, he, h1, h9⟩ := natLex_head n.natAbs (by omega)
        have h0d : '0' ≤ d :=
          Char.le_def.mpr (Nat.le_trans (by decide) (Char.le_def.mp h1 : 49 ≤ d.toNat))
        rw [hsh, he, List.cons_append, parseVal_digit f d (ds ++ rest) h0d h9]
        rw [← List.cons_append, ← he, ← hsh]
        exact parseNumber_intLex n rest hrest
  | .str s, rest, f + 1, _, _, _ => by
    show parseVal (f + 1) (dumpStr s ++ rest) = some (J.str s, rest)
    have hsh : dumpStr s ++ rest =
        '"' :: ((s.map escStrChar).flatten ++ '"' :: rest) := by
      simp [dumpStr]
    rw [hsh]
    have hv : parseVal (f + 1) ('"' :: ((s.map escStrChar).flatten ++ '"' :: rest)) =
        (parseStrBody ((s.map escStrChar).flatten ++ '"' :: rest)).map
          fun p => (J.str p.1, p.2) := by
      simp only [parseVal]
      rw [if_pos trivial]
    rw [hv, parse_dumpStr_body]
    rfl
  | .arr .nil, rest, f + 1, _, _, _ => rfl
  | .arr (.cons x xs), rest, f + 1, hwf, hrest, hfuel => by
    have hx : jwf x = true ∧ jlwf xs = true := by
      simp [jwf, jlwf, Bool.and_eq_true] at hwf
      exact hwf
    have hfx : jSize x ≤ f := by
      have he : jSize (J.arr (.cons x xs)) = max (jSize x) (jlSize xs) + 1 := rfl
      omega
    have hft : jlSize xs ≤ f := by
      have he : jSize (J.arr (.cons x xs)) = max (jSize x) (jlSize xs) + 1 := rfl
      omega
    have hsh : dumps (J.arr (.cons x xs)) ++ rest =
        '[' :: (dumps x ++ (dumpsArrTail xs ++ ']' :: rest)) := by
      show ('[' :: (dumps x ++ dumpsArrTail xs) ++ [']']) ++ rest = _
      simp [List.append_assoc]
    rw [hsh]
    simp only [parseVal]
    rw [if_neg (by decide), if_pos trivial]
    rw [dumps_skipWs x hx.1 (dumpsArrTail xs ++ ']' :: rest)]
    obtain ⟨c, cs, hhe, hcl⟩ := dumps_head x hx.1
    rw [hhe, List.cons_append]
    split
    · rename_i r2 heq
      injection heq with hc1 hc2
      exact absurd hc1 (headClass_ne_rsq c hcl)
    · rw [← List.cons_append, ← hhe,
        parseVal_dumps x (dumpsArrTail xs ++ ']' :: rest) f hx.1
          (delimNum_arrTail xs rest) hfx]
      simp only []
      rw [skipWs_arrTail xs rest, parseArrTail_dumps xs rest f hx.2 hft]
  | .obj .nil, rest, f + 1, _, _, _ => rfl
  | .obj (.cons k v ms), rest, f + 1, hwf, hrest, hfuel => by
    have hx : jwf v = true ∧ jmwf ms = true ∧ keysUnique (.cons k v ms) = true := by
      simp [jwf, jmwf, Bool.and_eq_true] at hwf
      exact ⟨hwf.1.1, hwf.1.2, hwf.2⟩
    have hfv : jSize v ≤ f := by
      have he : jSize (J.obj (.cons k v ms)) = max (jSize v) (jmSize ms) + 1 := rfl
      omega
    have hfm : jmSize ms ≤ f := by
      have he : jSize (J.obj (.cons k v ms)) = max (jSize v) (jmSize ms) + 1 := rfl
      omega
    have hsh : dumps (J.obj (.cons k v ms)) ++ rest =
        lbrace :: ('"' :: ((k.map escStrChar).flatten ++ '"' ::
          (':' :: ' ' :: (dumps v ++ (dumpsObjTail ms ++ rbrace :: rest))))) := by
      show (lbrace :: (dumpStr k ++ ':' :: ' ' :: dumps v ++ dumpsObjTail ms)
          ++ [rbrace]) ++ rest = _
      simp [dumpStr, List.append_assoc]
    rw [hsh]
    simp only [parseVal]
    rw [if_neg (by decide), if_neg (by decide), if_pos trivial]
    rw [skipWs_cons_of '"' _ (by decide)]
    simp only []
    rw [if_neg (by decide), if_pos trivial]
    rw [parse_dumpStr_body k
      (':' :: ' ' :: (dumps v ++ (dumpsObjTail ms ++ rbrace :: rest)))]
    simp only []
    rw [skipWs_cons_of ':' _ (by decide)]
    simp only []
    have hsw : skipWs (' ' :: (dumps v ++ (dumpsObjTail ms ++ rbrace :: rest))) =
        dumps v ++ (dumpsObjTail ms ++ rbrace :: rest) := by
      have h1 : skipWs (' ' :: (dumps v ++ (dumpsObjTail ms ++ rbrace :: rest))) =
          skipWs (dumps v ++ (dumpsObjTail ms ++ rbrace :: rest)) := rfl
      rw [h1, dumps_skipWs v hx.1]
    rw [hsw,
      parseVal_dumps v (dumpsObjTail ms ++ rbrace :: rest) f hx.1
        (delimNum_objTail ms rest) hfv]
    simp only []
    rw [skipWs_objTail ms rest, parseObjTail_dumps ms rest f hx.2.1 hfm]
    simp only []
    rw [mFold_self _ hx.2.2]
theorem parseArrTail_dumps : ∀ (xs : JList) (rest : List Char) (fuel : Nat),
    jlwf xs = true → jlSize xs ≤ fuel →
    parseArrTail fuel (dumpsArrTail xs ++ ']' :: rest) = some (xs, rest)
  | xs, _, 0, _, hfuel => absurd hfuel (by have := jlSize_pos xs; omega)
  | .nil, rest, f + 1, _, _ => rfl
  | .cons x xs, rest, f + 1, hwf, hfuel => by
    have hx : jwf x = true ∧ jlwf xs = true := by
      simp [jlwf, Bool.and_eq_true] at hwf
      exact hwf
    have hfx : jSize x ≤ f := by
      have he : jlSize (JList.cons x xs) = max (jSize x) (jlSize xs) + 1 := rfl
      omega
    have hft : jlSize xs ≤ f := by
      have he : jlSize (JList.cons x xs) = max (jSize x) (jlSize xs) + 1 := rfl
      omega
    have hsh : dumpsArrTail (JList.cons x xs) ++ ']' :: rest =
        ',' :: ' ' :: (dumps x ++ (dumpsArrTail xs ++ ']' :: rest)) := by
      show (',' :: ' ' :: (dumps x ++ dumpsArrTail xs)) ++ ']' :: rest = _
      simp [List.append_assoc]
    rw [hsh]
    simp only [parseArrTail]
    rw [if_neg (by decide), if_pos trivial]
    have h1 : skipWs (' ' :: (dumps x ++ (dumpsArrTail xs ++ ']' :: rest))) =
        skipWs (dumps x ++ (dumpsArrTail xs ++ ']' :: rest)) := rfl
    rw [h1, dumps_skipWs x hx.1,
      parseVal_dumps x (dumpsArrTail xs ++ ']' :: rest) f hx.1
        (delimNum_arrTail xs rest) hfx]
    simp only []
    rw [skipWs_arrTail xs rest, parseArrTail_dumps xs rest f hx.2 hft]
theorem parseObjTail_dumps : ∀ (ms : JMembers) (rest : List Char) (fuel : Nat),
    jmwf ms = true → jmSize ms ≤ fuel →
    parseObjTail fuel (dumpsObjTail ms ++ rbrace :: rest) = some (ms, rest)
  | ms, _, 0, _, hfuel => absurd hfuel (by have := jmSize_pos ms; omega)
  | .nil, rest, f + 1, _, _ => rfl
  | .cons k v ms, rest, f + 1, hwf, hfuel => by
    have hx : jwf v = true ∧ jmwf ms = true := by
      simp [jmwf, Bool.and_eq_true] at hwf
      exact hwf
    have hfv : jSize v ≤ f := by
      have he : jmSize (JMembers.cons k v ms) = max (jSize v) (jmSize ms) + 1 := rfl
      omega
    have hfm : jmSize ms ≤ f := by
      have he : jmSize (JMembers.cons k v ms) = max (jSize v) (jmSize ms) + 1 := rfl
      omega
    have hsh : dumpsObjTail (JMembers.cons k v ms) ++ rbrace :: rest =
        ',' :: ' ' :: ('"' :: ((k.map escStrChar).flatten ++ '"' ::
          (':' :: ' ' :: (dumps v ++ (dumpsObjTail ms ++ rbrace :: rest))))) := by
      show (',' :: ' ' :: (dumpStr k ++ ':' :: ' ' :: dumps v ++ dumpsObjTail ms))
          ++ rbrace :: rest = _
      simp [dumpStr, List.append_assoc]
    rw [hsh]
    simp only [parseObjTail]
    rw [if_neg (by decide), if_pos trivial]
    have h1 : skipWs (' ' :: ('"' :: ((k.map escStrChar).flatten ++ '"' ::
        (':' :: ' ' :: (dumps v ++ (dumpsObjTail ms ++ rbrace :: rest)))))) =
        '"' :: ((k.map escStrChar).flatten ++ '"' ::
        (':' :: ' ' :: (dumps v ++ (dumpsObjTail ms ++ rbrace :: rest)))) := by
      have h2 : skipWs (' ' :: ('"' :: ((k.map escStrChar).flatten ++ '"' ::
          (':' :: ' ' :: (dumps v ++ (dumpsObjTail ms ++ rbrace :: rest)))))) =
          skipWs ('"' :: ((k.map escStrChar).flatten ++ '"' ::
          (':' :: ' ' :: (dumps v ++ (dumpsObjTail ms ++ rbrace :: rest))))) := rfl
      rw [h2, skipWs_cons_of '"' _ (by decide)]
    rw [h1]
    simp only []
    rw [parse_dumpStr_body k
      (':' :: ' ' :: (dumps v ++ (dumpsObjTail ms ++ rbrace :: rest)))]
    simp only []
    rw [skipWs_cons_of ':' _ (by decide)]
    simp only []
    have hsw : skipWs (' ' :: (dumps v ++ (dumpsObjTail ms ++ rbrace :: rest))) =
        dumps v ++ (dumpsObjTail ms ++ rbrace :: rest) := by
      have h2 : skipWs (' ' :: (dumps v ++ (dumpsObjTail ms ++ rbrace :: rest))) =
          skipWs (dumps v ++ (dumpsObjTail ms ++ rbrace :: rest)) := rfl
      rw [h2, dumps_skipWs v hx.1]
    rw [hsw,
      parseVal_dumps v (dumpsObjTail ms ++ rbrace :: rest) f hx.1
        (delimNum_objTail ms rest) hfv]
    simp only []
    rw [skipWs_objTail ms rest, parseObjTail_dumps ms rest f hx.2 hfm]
end

mutual
theorem jSize_le : ∀ j : J, jSize j ≤ (dumps j).length + 1
  | .null => by simp [jSize, dumps]
  | .bool true => by simp [jSize, dumps]
  | .bool false => by simp [jSize, dumps]
  | .int n => by simp [jSize]
  | .numLex s => by simp [jSize]
  | .str s => by simp [jSize]
  | .arr .nil => by simp [jSize, dumps]
  | .arr (.cons x xs) => by
    have h1 := jSize_le x
    have h2 := jlSize_le xs
    have hs : jSize (J.arr (.cons x xs)) = max (jSize x) (jlSize xs) + 1 := rfl
    have hl : (dumps (J.arr (.cons x xs))).length =
        (dumps x).length + (dumpsArrTail xs).length + 2 := by
      show ('[' :: (dumps x ++ dumpsArrTail xs) ++ [']']).length = _
      simp [List.length_append]
      omega
    omega
  | .obj .nil => by simp [jSize, dumps]
  | .obj (.cons k v ms) => by
    have h1 := jSize_le v
    have h2 := jmSize_le ms
    have hs : jSize (J.obj (.cons k v ms)) = max (jSize v) (jmSize ms) + 1 := rfl
    have hl : (dumps (J.obj (.cons k v ms))).length =
        (dumpStr k).length + (dumps v).length + (dumpsObjTail ms).length + 4 := by
      show (lbrace :: (dumpStr k ++ ':' :: ' ' :: dumps v ++ dumpsObjTail ms)
          ++ [rbrace]).length = _
      simp [List.length_append]
      omega
    omega
theorem jlSize_le : ∀ xs : JList, jlSize xs ≤ (dumpsArrTail xs).length + 1
  | .nil => by simp [jlSize, dumpsArrTail]
  | .cons x xs => by
    have h1 := jSize_le x
    have h2 := jlSize_le xs
    have hs : jlSize (JList.cons x xs) = max (jSize x) (jlSize xs) + 1 := rfl
    have hl : (dumpsArrTail (JList.cons x xs)).length =
        (dumps x).length + (dumpsArrTail xs).length + 2 := by
      show (',' :: ' ' :: (dumps x ++ dumpsArrTail xs)).length = _
      simp [List.length_append]
    omega
theorem jmSize_le : ∀ ms : JMembers, jmSize ms ≤ (dumpsObjTail ms).length + 1
  | .nil => by simp [jmSize, dumpsObjTail]
  | .cons k v ms => by
    have h1 := jSize_le v
    have h2 := jmSize_le ms
    have hs : jmSize (JMembers.cons k v ms) = max (jSize v) (jmSize ms) + 1 := rfl
    have hl : (dumpsObjTail (JMembers.cons k v ms)).length =
        (dumpStr k).length + (dumps v).length + (dumpsObjTail ms).length + 4 := by
      show (',' :: ' ' :: (dumpStr k ++ ':' :: ' ' :: dumps v ++ dumpsObjTail ms)).length = _
      simp [List.length_append]
      omega
    omega
end

theorem loads_dumps (j : J) (hwf : jwf j = true) : loads (dumps j) = some j := by
  unfold loads
  have hsw : skipWs (dumps j) = dumps j := by
    have h := dumps_skipWs j hwf []
    simpa using h
  rw [hsw]
  have hp : parseVal ((dumps j).length + 1) (dumps j ++ []) = some (j, []) :=
    parseVal_dumps j [] _ hwf delimNum_nil (jSize_le j)
  rw [List.append_nil] at hp
  rw [hp]
  rfl


theorem dumps_NoNLCR (j : J) (hwf : jwf j = true) : NoNLCR (dumps j) := by
  intro x hx
  have h := dumps_chars j hwf x hx
  exact ⟨fun he => absurd (he ▸ h.1) (by decide),
    fun he => absurd (he ▸ h.1) (by decide)⟩

theorem jwf_toJson (b : Booking) : jwf (toJson b) = true := rfl

theorem pyStrip_dumps_obj (ms : JMembers) :
    pyStrip (dumps (J.obj ms)) = dumps (J.obj ms) := by
  cases ms with
  | nil => rfl
  | cons k v rest =>
    apply pyStrip_eq_self
    · intro x hx
      have he : dumps (J.obj (.cons k v rest)) =
          lbrace :: ((dumpStr k ++ ':' :: ' ' :: dumps v ++ dumpsObjTail rest)
            ++ [rbrace]) := rfl
      rw [he, List.head?_cons, Option.some.injEq] at hx
      subst hx
      decide
    · intro x hx
      have he : dumps (J.obj (.cons k v rest)) =
          (lbrace :: (dumpStr k ++ ':' :: ' ' :: dumps v ++ dumpsObjTail rest))
            ++ [rbrace] := rfl
      rw [he, List.getLast?_concat, Option.some.injEq] at hx
      subst hx
      decide

theorem dumps_obj_ne_nil (ms : JMembers) : ¬dumps (J.obj ms) = [] := by
  cases ms with
  | nil => simp [dumps]
  | cons k v rest =>
    have he : dumps (J.obj (.cons k v rest)) =
        lbrace :: ((dumpStr k ++ ':' :: ' ' :: dumps v ++ dumpsObjTail rest)
          ++ [rbrace]) := rfl
    rw [he]
    simp

theorem scanBookingLines_obj_line (u line : List Char) (ms : JMembers)
    (rest : List (List Char))
    (hstrip : pyStrip line = line) (hne : ¬line = [])
    (hld : loads line = some (J.obj ms)) :
    scanBookingLines u (line :: rest) =
      (if usernameMatches ms u = true then [J.obj ms] else []) ++
        scanBookingLines u rest := by
  simp only [scanBookingLines, hstrip, hld]
  rw [if_neg hne]
  by_cases hm : usernameMatches ms u = true
  · simp [hm]
  · simp [hm]

theorem lineSafe_of_obj (line : List Char) (ms : JMembers)
    (hstrip : pyStrip line = line) (hld : loads line = some (J.obj ms)) :
    lineSafe line = true := by
  unfold lineSafe
  rw [hstrip, hld]
  simp

theorem scanBookingLines_append (u : List Char) (l1 l2 : List (List Char))
    (h : ∀ line ∈ l1, lineSafe line = true) :
    scanBookingLines u (l1 ++ l2) =
      scanBookingLines u l1 ++ scanBookingLines u l2 := by
  induction l1 with
  | nil => rfl
  | cons line rest ih =>
    have hsafe := h line (by simp)
    have hrest : ∀ l ∈ rest, lineSafe l = true := fun l hl => h l (by simp [hl])
    rw [List.cons_append]
    by_cases hs : pyStrip line = []
    · simp only [scanBookingLines, hs]
      exact ih hrest
    · unfold lineSafe at hsafe
      rw [Bool.or_eq_true] at hsafe
      rcases hsafe with hsafe | hsafe
      · exact absurd (by simpa using hsafe) hs
      · cases hload : loads (pyStrip line) with
        | none =>
          simp only [scanBookingLines, hload]
          rw [if_neg hs, if_neg hs]
          exact ih hrest
        | some v =>
          match v with
          | J.obj ms =>
            simp only [scanBookingLines, hload]
            rw [if_neg hs, if_neg hs]
            by_cases hm : usernameMatches ms u = true
            · simp only [hm]
              rw [if_pos trivial, if_pos trivial, List.cons_append, ih hrest]
            · rw [if_neg hm, if_neg hm]
              exact ih hrest
          | J.null | J.bool _ | J.int _ | J.numLex _ | J.str _ | J.arr _ =>
            rw [hload] at hsafe
            simp at hsafe

theorem loads_dumps_toJson (b : Booking) :
    loads (dumps (toJson b)) = some (toJson b) :=
  loads_dumps (toJson b) (jwf_toJson b)

theorem pyStrip_dumps_toJson (b : Booking) :
    pyStrip (dumps (toJson b)) = dumps (toJson b) :=
  pyStrip_dumps_obj (bookingMembers b)

theorem dumps_toJson_ne_nil (b : Booking) : ¬dumps (toJson b) = [] :=
  dumps_obj_ne_nil (bookingMembers b)

theorem usernameMatches_booking (b : Booking) (u : List Char) :
    usernameMatches (bookingMembers b) u = decide (b.username = u) := rfl

theorem load_user_bookings_save (u : List Char) (file : Option (List Char))
    (b : Booking) (hsafe : ScanSafe file) :
    load_user_bookings u (save_booking file b) =
      load_user_bookings u file ++
        (if b.username = u then [toJson b] else []) := by
  obtain ⟨hok, hlines⟩ := hsafe
  have hnl : NoNLCR (dumps (toJson b)) := dumps_NoNLCR _ (jwf_toJson b)
  obtain ⟨L, hL⟩ := linesOf_terminated (contentOf file) hok
  have hLsafe : ∀ line ∈ L, lineSafe line = true := by
    intro line hline
    exact hlines line (by rw [hL]; simp [hline])
  have hsplit : linesOf (contentOf file ++ (dumps (toJson b) ++ ['\n'])) =
      L ++ [dumps (toJson b), []] := by
    rw [linesOf_append_line (contentOf file) (dumps (toJson b)) hok hnl, hL,
      List.dropLast_concat]
  have hnew : scanBookingLines u [dumps (toJson b), []] =
      if b.username = u then [toJson b] else [] := by
    rw [scanBookingLines_obj_line u (dumps (toJson b)) (bookingMembers b) [[]]
      (pyStrip_dumps_toJson b) (dumps_toJson_ne_nil b) (loads_dumps_toJson b)]
    have hrest : scanBookingLines u [[]] = [] := rfl
    rw [hrest, List.append_nil, usernameMatches_booking]
    by_cases hm : b.username = u
    · rw [if_pos (by simp [hm]), if_pos hm]
      rfl
    · rw [if_neg (by simp [hm]), if_neg hm]
  have hold : load_user_bookings u file = scanBookingLines u L := by
    unfold load_user_bookings
    match file with
    | none =>
      have hL2 : linesOf [] = L ++ [[]] := hL
      have : L = [] := by
        have h3 : linesOf [] = [[]] := rfl
        rw [h3] at hL2
        cases L with
        | nil => rfl
        | cons a as => simp at hL2
      rw [this]
      rfl
    | some content =>
      show scanBookingLines u (linesOf content) = _
      rw [show linesOf content = L ++ [[]] from hL,
        scanBookingLines_append u L [[]] hLsafe]
      have : scanBookingLines u [[]] = [] := rfl
      rw [this, List.append_nil]
  show load_user_bookings u (appendText file (dumps (toJson b) ++ ['\n'])) = _
  rw [hold]
  have hmain : load_user_bookings u (appendText file (dumps (toJson b) ++ ['\n'])) =
      scanBookingLines u (L ++ [dumps (toJson b), []]) := by
    show scanBookingLines u (linesOf (contentOf file ++ (dumps (toJson b) ++ ['\n']))) = _
    rw [hsplit]
  rw [hmain, scanBookingLines_append u L [dumps (toJson b), []] hLsafe, hnew]

theorem scanSafe_save (file : Option (List Char)) (b : Booking)
    (h : ScanSafe file) : ScanSafe (save_booking file b) := by
  obtain ⟨hok, hlines⟩ := h
  have hnl : NoNLCR (dumps (toJson b)) := dumps_NoNLCR _ (jwf_toJson b)
  obtain ⟨L, hL⟩ := linesOf_terminated (contentOf file) hok
  have hsplit : linesOf (contentOf file ++ (dumps (toJson b) ++ ['\n'])) =
      L ++ [dumps (toJson b), []] := by
    rw [linesOf_append_line (contentOf file) (dumps (toJson b)) hok hnl, hL,
      List.dropLast_concat]
  constructor
  · show StoreOk (contentOf file ++ (dumps (toJson b) ++ ['\n']))
    exact storeOk_append _ _ hok hnl
  · show ∀ line ∈ linesOf (contentOf file ++ (dumps (toJson b) ++ ['\n'])),
      lineSafe line = true
    rw [hsplit]
    intro line hline
    rcases List.mem_append.mp hline with hin | hin
    · exact hlines line (by rw [hL]; simp [hin])
    · simp only [List.mem_cons, List.not_mem_nil, or_false] at hin
      rcases hin with rfl | rfl
      · exact lineSafe_of_obj _ (bookingMembers b) (pyStrip_dumps_toJson b)
          (loads_dumps_toJson b)
      · rfl

theorem scanSafe_nil : ScanSafe none := by
  constructor
  · exact ⟨by simp [contentOf], Or.inl rfl⟩
  · intro line hline
    have h : linesOf (contentOf none) = [[]] := rfl
    rw [h] at hline
    simp at hline
    subst hline
    rfl

theorem load_user_bookings_save_all (u : List Char) (bs : List Booking) :
    ∀ file : Option (List Char), ScanSafe file →
    load_user_bookings u (save_all file bs) =
      load_user_bookings u file ++
        (bs.filter fun b => b.username = u).map toJson := by
  induction bs with
  | nil => intro file _; simp [save_all]
  | cons b rest ih =>
    intro file hsafe
    have hstep : save_all file (b :: rest) = save_all (save_booking file b) rest := rfl
    rw [hstep, ih (save_booking file b) (scanSafe_save file b hsafe),
      load_user_bookings_save u file b hsafe]
    by_cases hm : b.username = u
    · rw [if_pos hm]
      have hf : (b :: rest).filter (fun b => b.username = u) =
          b :: rest.filter (fun b => b.username = u) := by
        simp [List.filter, hm]
      rw [hf]
      simp
    · rw [if_neg hm]
      have hf : (b :: rest).filter (fun b => b.username = u) =
          rest.filter (fun b => b.username = u) := by
        simp [List.filter, hm]
      rw [hf]
      simp

end A

/-! ## Lemmas: the booking identifier -/

theorem digitChar_eq_mod (n : Nat) : digitChar n = digitChar (n % 10) := by
  unfold digitChar
  congr 1
  omega

theorem digitChar_mod_inj (a b : Nat) (h : digitChar a = digitChar b) :
    a % 10 = b % 10 := by
  have hd : ∀ x : Fin 10, ∀ y : Fin 10,
      digitChar x.val = digitChar y.val → x.val = y.val := by decide
  have h2 : digitChar (a % 10) = digitChar (b % 10) := by
    rw [← digitChar_eq_mod, ← digitChar_eq_mod]
    exact h
  exact hd ⟨a % 10, Nat.mod_lt _ (by omega)⟩ ⟨b % 10, Nat.mod_lt _ (by omega)⟩ h2

theorem strftime_expand (t : DT) : strftimeYmdHMS t =
    [digitChar (t.year / 1000), digitChar (t.year / 100), digitChar (t.year / 10),
     digitChar t.year, digitChar (t.month / 10), digitChar t.month,
     digitChar (t.day / 10), digitChar t.day, digitChar (t.hour / 10), digitChar t.hour,
     digitChar (t.minute / 10), digitChar t.minute,
     digitChar (t.second / 10), digitChar t.second] := rfl

theorem strftime_inj (t1 t2 : DT) (h1 : validDT t1) (h2 : validDT t2)
    (he : strftimeYmdHMS t1 = strftimeYmdHMS t2) : t1 = t2 := by
  rw [strftime_expand, strftime_expand] at he
  simp only [List.cons.injEq, and_true] at he
  obtain ⟨e1, e2, e3, e4, e5, e6, e7, e8, e9, e10, e11, e12, e13, e14⟩ := he
  obtain ⟨hy1, hy2, hmo1, hmo2, hd1, hd2, hh1, hmi1, hs1⟩ := h1
  obtain ⟨gy1, gy2, gmo1, gmo2, gd1, gd2, gh1, gmi1, gs1⟩ := h2
  have m1 := digitChar_mod_inj _ _ e1
  have m2 := digitChar_mod_inj _ _ e2
  have m3 := digitChar_mod_inj _ _ e3
  have m4 := digitChar_mod_inj _ _ e4
  have m5 := digitChar_mod_inj _ _ e5
  have m6 := digitChar_mod_inj _ _ e6
  have m7 := digitChar_mod_inj _ _ e7
  have m8 := digitChar_mod_inj _ _ e8
  have m9 := digitChar_mod_inj _ _ e9
  have m10 := digitChar_mod_inj _ _ e10
  have m11 := digitChar_mod_inj _ _ e11
  have m12 := digitChar_mod_inj _ _ e12
  have m13 := digitChar_mod_inj _ _ e13
  have m14 := digitChar_mod_inj _ _ e14
  cases t1
  cases t2
  simp only [DT.mk.injEq]
  dsimp only at m1 m2 m3 m4 m5 m6 m7 m8 m9 m10 m11 m12 m13 m14 hy1 hy2 hmo1 hmo2 hd1 hd2 hh1 hmi1 hs1 gy1 gy2 gmo1 gmo2 gd1 gd2 gh1 gmi1 gs1
  refine ⟨by omega, by omega, by omega, by omega, by omega, by omega⟩

theorem booking_id_inj (t1 t2 : DT) (h1 : validDT t1) (h2 : validDT t2)
    (he : booking_id t1 = booking_id t2) : t1 = t2 := by
  unfold booking_id at he
  simp only [List.cons.injEq, true_and] at he
  exact strftime_inj t1 t2 h1 h2 he

theorem booking_id_length (t : DT) : (booking_id t).length = 16 := rfl

theorem strftime_digits (t : DT) : ∀ x ∈ strftimeYmdHMS t, '0' ≤ x ∧ x ≤ '9' := by
  intro x hx
  rw [strftime_expand] at hx
  simp only [List.mem_cons, List.not_mem_nil, or_false] at hx
  rcases hx with rfl|rfl|rfl|rfl|rfl|rfl|rfl|rfl|rfl|rfl|rfl|rfl|rfl|rfl <;>
    exact digitChar_range _

/-! ## Lemmas: silence and skipping of the booking scans -/

namespace P

theorem load_bookings_prints_nil (file : Option (List Char)) :
    load_bookings_prints file = [] :=
  foldl_keep_linesOf (contentOf file) []

theorem login_check_iff (users : List (List Char × UserRec)) (u pw : List Char) :
    login_check users u pw = true ↔
      ∃ r, dictFind? users u = some r ∧ r.password = hash_password pw := by
  unfold login_check
  cases h : dictFind? users u with
  | none => simp
  | some r => simp

theorem load_bookings_wf_mal (b : Booking) (mal : List Char)
    (hb : CleanBooking b) (hm : parseBookingLine mal = none) (hnl : NoNLCR mal) :
    load_bookings (some ((encodeBooking b ++ ['\n']) ++ (mal ++ ['\n']))) = [b] := by
  rw [load_bookings_eq]
  rw [show contentOf (some ((encodeBooking b ++ ['\n']) ++ (mal ++ ['\n']))) =
      (encodeBooking b ++ ['\n']) ++ (mal ++ ['\n']) from rfl]
  have hs1 : StoreOk (encodeBooking b ++ ['\n']) := by
    have h := storeOk_append [] _ storeOk_nil (encodeBooking_noNLCR b hb)
    simpa using h
  have h1 := filterMap_linesOf_append parseBookingLine rfl
    (encodeBooking b ++ ['\n']) mal hs1 hnl
  rw [h1]
  have h2 := filterMap_linesOf_append parseBookingLine rfl
    [] (encodeBooking b) storeOk_nil (encodeBooking_noNLCR b hb)
  simp only [List.nil_append] at h2
  rw [h2, parse_encode b hb, hm]
  rfl

theorem load_bookings_mal_wf (b : Booking) (mal : List Char)
    (hb : CleanBooking b) (hm : parseBookingLine mal = none) (hnl : NoNLCR mal) :
    load_bookings (some ((mal ++ ['\n']) ++ (encodeBooking b ++ ['\n']))) = [b] := by
  rw [load_bookings_eq]
  rw [show contentOf (some ((mal ++ ['\n']) ++ (encodeBooking b ++ ['\n']))) =
      (mal ++ ['\n']) ++ (encodeBooking b ++ ['\n']) from rfl]
  have hs1 : StoreOk (mal ++ ['\n']) := by
    have h := storeOk_append [] _ storeOk_nil hnl
    simpa using h
  have h1 := filterMap_linesOf_append parseBookingLine rfl
    (mal ++ ['\n']) (encodeBooking b) hs1 (encodeBooking_noNLCR b hb)
  rw [h1]
  have h2 := filterMap_linesOf_append parseBookingLine rfl
    [] mal storeOk_nil hnl
  simp only [List.nil_append] at h2
  rw [h2, parse_encode b hb, hm]
  rfl

end P

namespace A

theorem load_user_bookings_prints_nil (file : Option (List Char)) :
    load_user_bookings_prints file = [] :=
  foldl_keep_linesOf (contentOf file) []

theorem login_check_iff_app (users : List (List Char × List Char)) (u pw : List Char) :
    login_check users u pw = true ↔
      ∃ stored, dictFind? users u = some stored ∧ stored = hash_password pw := by
  unfold login_check
  cases h : dictFind? users u with
  | none => simp
  | some stored => simp

theorem scanBookingLines_skip (u line : List Char) (rest : List (List Char))
    (h : loads (pyStrip line) = none) :
    scanBookingLines u (line :: rest) = scanBookingLines u rest := by
  by_cases hs : pyStrip line = []
  · simp [scanBookingLines, hs]
  · simp [scanBookingLines, hs, h]

theorem load_user_bookings_wf_mal (b : Booking) (mal : List Char)
    (hm : loads (pyStrip mal) = none) (hnl : NoNLCR mal) :
    load_user_bookings b.username
      (some ((dumps (toJson b) ++ ['\n']) ++ (mal ++ ['\n']))) = [toJson b] := by
  have hnlb : NoNLCR (dumps (toJson b)) := dumps_NoNLCR _ (jwf_toJson b)
  have hs1 : StoreOk (dumps (toJson b) ++ ['\n']) := by
    have h := storeOk_append [] _ storeOk_nil hnlb
    simpa using h
  have hlines2 : linesOf (dumps (toJson b) ++ ['\n']) = [dumps (toJson b), []] := by
    have h := linesOf_append_line [] (dumps (toJson b)) storeOk_nil hnlb
    simpa using h
  have hlines : linesOf ((dumps (toJson b) ++ ['\n']) ++ (mal ++ ['\n'])) =
      [dumps (toJson b), mal, []] := by
    have h := linesOf_append_line (dumps (toJson b) ++ ['\n']) mal hs1 hnl
    rw [hlines2] at h
    simpa using h
  show scanBookingLines b.username
    (linesOf ((dumps (toJson b) ++ ['\n']) ++ (mal ++ ['\n']))) = [toJson b]
  rw [hlines,
    scanBookingLines_obj_line b.username (dumps (toJson b)) (bookingMembers b)
      [mal, []] (pyStrip_dumps_toJson b) (dumps_toJson_ne_nil b) (loads_dumps_toJson b),
    scanBookingLines_skip b.username mal [[]] hm]
  have hrest : scanBookingLines b.username [[]] = [] := rfl
  rw [hrest, List.append_nil, usernameMatches_booking]
  simp only [decide_eq_true_eq, if_pos rfl]
  rfl

theorem load_user_bookings_mal_wf (b : Booking) (mal : List Char)
    (hm : loads (pyStrip mal) = none) (hnl : NoNLCR mal) :
    load_user_bookings b.username
      (some ((mal ++ ['\n']) ++ (dumps (toJson b) ++ ['\n']))) = [toJson b] := by
  have hnlb : NoNLCR (dumps (toJson b)) := dumps_NoNLCR _ (jwf_toJson b)
  have hs1 : StoreOk (mal ++ ['\n']) := by
    have h := storeOk_append [] _ storeOk_nil hnl
    simpa using h
  have hlines2 : linesOf (mal ++ ['\n']) = [mal, []] := by
    have h := linesOf_append_line [] mal storeOk_nil hnl
    simpa using h
  have hlines : linesOf ((mal ++ ['\n']) ++ (dumps (toJson b) ++ ['\n'])) =
      [mal, dumps (toJson b), []] := by
    have h := linesOf_append_line (mal ++ ['\n']) (dumps (toJson b)) hs1 hnlb
    rw [hlines2] at h
    simpa using h
  show scanBookingLines b.username
    (linesOf ((mal ++ ['\n']) ++ (dumps (toJson b) ++ ['\n']))) = [toJson b]
  rw [hlines, scanBookingLines_skip b.username mal _ hm,
    scanBookingLines_obj_line b.username (dumps (toJson b)) (bookingMembers b)
      [[]] (pyStrip_dumps_toJson b) (dumps_toJson_ne_nil b) (loads_dumps_toJson b)]
  have hrest2 : scanBookingLines b.username [[]] = [] := rfl
  rw [hrest2, List.append_nil, usernameMatches_booking]
  simp only [decide_eq_true_eq, if_pos rfl]
  rfl

end A

/-! ## The claims -/

/-- C1: credential verification in both variants hashes the submitted
password with SHA-256, looks the submitted username up in the dict the
accounts-file scan builds, and succeeds exactly when that record exists
and its stored hash equals the computed digest by exact equality; the
registered alice scenario gives false on a wrong password and true on
the right one. -/
theorem claim_C1 :
    (∀ (file : Option (List Char)) (u pw : List Char),
      P.login_check (P.load_users file).1 u pw = true ↔
        ∃ r, dictFind? (P.load_users file).1 u = some r ∧
          r.password = hash_password pw) ∧
    (∀ (file : Option (List Char)) (u pw : List Char),
      A.login_check (A.load_users file) u pw = true ↔
        ∃ stored, dictFind? (A.load_users file) u = some stored ∧
          stored = hash_password pw) ∧
    ((P.register none "alice".data "a@b.c".data "password123".data
        "password123".data "20250301120000".data).2 = true ∧
     P.login_check (P.load_users (P.register none "alice".data "a@b.c".data
        "password123".data "password123".data "20250301120000".data).1).1
        "alice".data "wrongpass".data = false ∧
     P.login_check (P.load_users (P.register none "alice".data "a@b.c".data
        "password123".data "password123".data "20250301120000".data).1).1
        "alice".data "password123".data = true) ∧
    ((A.signup none "alice".data "password123".data "password123".data).2 = true ∧
     A.login_check (A.load_users (A.signup none "alice".data "password123".data
        "password123".data).1) "alice".data "wrongpass".data = false ∧
     A.login_check (A.load_users (A.signup none "alice".data "password123".data
        "password123".data).1) "alice".data "password123".data = true) := by
  refine ⟨fun file u pw => P.login_check_iff _ u pw,
    fun file u pw => A.login_check_iff_app _ u pw, ⟨?_, ?_, ?_⟩, ⟨?_, ?_, ?_⟩⟩
  · decide
  · decide
  · decide
  · decide
  · decide
  · decide

/-- C2 (amended): a pipe-variant booking whose fields carry no delimiter
and no line terminator, and whose first field starts and last field ends
with no whitespace, is recovered field for field; a JSON-variant booking
is recovered unconditionally. -/
theorem claim_C2 :
    (∀ b : P.Booking, P.CleanBooking b →
      P.parseBookingLine (P.encodeBooking b) = some b) ∧
    (∀ b : A.Booking, A.loads (A.dumps (A.toJson b)) = some (A.toJson b)) :=
  ⟨fun b hb => P.parse_encode b hb, fun b => A.loads_dumps_toJson b⟩

/-- C2 witness: a concrete clean booking of each variant round-trips. -/
theorem claim_C2_witness :
    P.CleanBooking (⟨"BK20250301120000".data, "alice".data, "Ancient Worlds".data, "2025-03-01".data, "10:00".data, "2".data, "Guided".data, "2025-02-28".data, "Confirmed".data⟩ : P.Booking) ∧
    P.parseBookingLine (P.encodeBooking (⟨"BK20250301120000".data, "alice".data, "Ancient Worlds".data, "2025-03-01".data, "10:00".data, "2".data, "Guided".data, "2025-02-28".data, "Confirmed".data⟩ : P.Booking)) = some (⟨"BK20250301120000".data, "alice".data, "Ancient Worlds".data, "2025-03-01".data, "10:00".data, "2".data, "Guided".data, "2025-02-28".data, "Confirmed".data⟩ : P.Booking) ∧
    A.loads (A.dumps (A.toJson (⟨"BK20250301120000".data, "alice".data, "Ancient Worlds".data, "Cairo".data, "EG".data, "History".data, "2025-03-01".data, "10:00".data, 2, "Guided".data, "Alice A".data, "a@b.c".data, "123".data, "".data, "2025-03-01 12:00:00".data⟩ : A.Booking))) = some (A.toJson (⟨"BK20250301120000".data, "alice".data, "Ancient Worlds".data, "Cairo".data, "EG".data, "History".data, "2025-03-01".data, "10:00".data, 2, "Guided".data, "Alice A".data, "a@b.c".data, "123".data, "".data, "2025-03-01 12:00:00".data⟩ : A.Booking)) :=
  ⟨by decide, claim_C2.1 (⟨"BK20250301120000".data, "alice".data, "Ancient Worlds".data, "2025-03-01".data, "10:00".data, "2".data, "Guided".data, "2025-02-28".data, "Confirmed".data⟩ : P.Booking) (by decide), claim_C2.2 (⟨"BK20250301120000".data, "alice".data, "Ancient Worlds".data, "Cairo".data, "EG".data, "History".data, "2025-03-01".data, "10:00".data, 2, "Guided".data, "Alice A".data, "a@b.c".data, "123".data, "".data, "2025-03-01 12:00:00".data⟩ : A.Booking)⟩

/-- C2 counterexample: all nine fields of this booking hold no pipe and
no line break, the stated precondition of the round-trip claim, yet the
record is not recovered: the pipe-variant loader strips each line before
splitting, so the leading space of the first field is lost. -/
theorem claim_C2_counterexample :
    (∀ f ∈ ([" A".data, "u".data, "m".data, "d".data, "t".data, "2".data,
        "g".data, "bd".data, "s".data] : List (List Char)), CleanField f) ∧
    ¬P.parseBookingLine (P.encodeBooking (⟨" A".data, "u".data, "m".data, "d".data, "t".data, "2".data, "g".data, "bd".data, "s".data⟩ : P.Booking)) = some (⟨" A".data, "u".data, "m".data, "d".data, "t".data, "2".data, "g".data, "bd".data, "s".data⟩ : P.Booking) := by
  constructor
  · decide
  · decide

/-- C3: appending one booking to a store in which no record matches its
username makes the matching scan return exactly that record once, in both
variants, for any store state the loaders accept in full. -/
theorem claim_C3 :
    (∀ (file : Option (List Char)) (b : P.Booking),
      StoreOk (contentOf file) → P.CleanBooking b →
      P.user_bookings b.username file = [] →
      P.user_bookings b.username (P.save_booking file b) = [b]) ∧
    (∀ (file : Option (List Char)) (b : A.Booking),
      A.ScanSafe file → A.load_user_bookings b.username file = [] →
      A.load_user_bookings b.username (A.save_booking file b) = [A.toJson b]) := by
  constructor
  · intro file b hs hb hnone
    rw [P.user_bookings_append b.username file b hs hb, hnone, if_pos rfl]
    rfl
  · intro file b hsafe hnone
    rw [A.load_user_bookings_save b.username file b hsafe, hnone, if_pos rfl]
    rfl

/-- C3 witness: the alice booking at Ancient Worlds appended to the empty
store is returned exactly once by the matching scan, in both variants. -/
theorem claim_C3_witness :
    P.user_bookings "alice".data (P.save_booking none (⟨"BK20250301120000".data, "alice".data, "Ancient Worlds".data, "2025-03-01".data, "10:00".data, "2".data, "Guided".data, "2025-02-28".data, "Confirmed".data⟩ : P.Booking)) = [(⟨"BK20250301120000".data, "alice".data, "Ancient Worlds".data, "2025-03-01".data, "10:00".data, "2".data, "Guided".data, "2025-02-28".data, "Confirmed".data⟩ : P.Booking)] ∧
    A.load_user_bookings "alice".data (A.save_booking none (⟨"BK20250301120000".data, "alice".data, "Ancient Worlds".data, "Cairo".data, "EG".data, "History".data, "2025-03-01".data, "10:00".data, 2, "Guided".data, "Alice A".data, "a@b.c".data, "123".data, "".data, "2025-03-01 12:00:00".data⟩ : A.Booking)) =
      [A.toJson (⟨"BK20250301120000".data, "alice".data, "Ancient Worlds".data, "Cairo".data, "EG".data, "History".data, "2025-03-01".data, "10:00".data, 2, "Guided".data, "Alice A".data, "a@b.c".data, "123".data, "".data, "2025-03-01 12:00:00".data⟩ : A.Booking)] :=
  ⟨claim_C3.1 none (⟨"BK20250301120000".data, "alice".data, "Ancient Worlds".data, "2025-03-01".data, "10:00".data, "2".data, "Guided".data, "2025-02-28".data, "Confirmed".data⟩ : P.Booking) (by decide) (by decide) rfl,
   claim_C3.2 none (⟨"BK20250301120000".data, "alice".data, "Ancient Worlds".data, "Cairo".data, "EG".data, "History".data, "2025-03-01".data, "10:00".data, 2, "Guided".data, "Alice A".data, "a@b.c".data, "123".data, "".data, "2025-03-01 12:00:00".data⟩ : A.Booking) ⟨by decide, by decide⟩ rfl⟩

/-- C4 (amended): a store holding one well-formed line and one line the
decoder rejects, in either order, yields a scan with exactly the
well-formed record: the bad line is skipped silently and the read
continues past it, no exception escapes, and no warning is printed by
either booking loader. -/
theorem claim_C4 :
    (∀ (b : P.Booking) (mal : List Char), P.CleanBooking b →
      P.parseBookingLine mal = none → NoNLCR mal →
      P.load_bookings
        (some ((P.encodeBooking b ++ ['\n']) ++ (mal ++ ['\n']))) = [b] ∧
      P.load_bookings
        (some ((mal ++ ['\n']) ++ (P.encodeBooking b ++ ['\n']))) = [b] ∧
      P.load_bookings_prints
        (some ((P.encodeBooking b ++ ['\n']) ++ (mal ++ ['\n']))) = [] ∧
      P.load_bookings_prints
        (some ((mal ++ ['\n']) ++ (P.encodeBooking b ++ ['\n']))) = []) ∧
    (∀ (b : A.Booking) (mal : List Char),
      A.loads (pyStrip mal) = none → NoNLCR mal →
      A.load_user_bookings b.username
        (some ((A.dumps (A.toJson b) ++ ['\n']) ++ (mal ++ ['\n']))) =
          [A.toJson b] ∧
      A.load_user_bookings b.username
        (some ((mal ++ ['\n']) ++ (A.dumps (A.toJson b) ++ ['\n']))) =
          [A.toJson b] ∧
      A.load_user_bookings_prints
        (some ((A.dumps (A.toJson b) ++ ['\n']) ++ (mal ++ ['\n']))) = [] ∧
      A.load_user_bookings_prints
        (some ((mal ++ ['\n']) ++ (A.dumps (A.toJson b) ++ ['\n']))) = []) := by
  constructor
  · intro b mal hb hm hnl
    exact ⟨P.load_bookings_wf_mal b mal hb hm hnl,
      P.load_bookings_mal_wf b mal hb hm hnl,
      P.load_bookings_prints_nil _, P.load_bookings_prints_nil _⟩
  · intro b mal hm hnl
    exact ⟨A.load_user_bookings_wf_mal b mal hm hnl,
      A.load_user_bookings_mal_wf b mal hm hnl,
      A.load_user_bookings_prints_nil _, A.load_user_bookings_prints_nil _⟩

/-- C4 witness: a concrete two-line store of each variant, one good line
and one malformed line in both orders, scans to exactly the good record
and prints nothing. -/
theorem claim_C4_witness :
    (P.load_bookings
      (some ((P.encodeBooking (⟨"BK20250301120000".data, "alice".data, "Ancient Worlds".data, "2025-03-01".data, "10:00".data, "2".data, "Guided".data, "2025-02-28".data, "Confirmed".data⟩ : P.Booking) ++ ['\n']) ++ ("bad|line".data ++ ['\n']))) =
        [(⟨"BK20250301120000".data, "alice".data, "Ancient Worlds".data, "2025-03-01".data, "10:00".data, "2".data, "Guided".data, "2025-02-28".data, "Confirmed".data⟩ : P.Booking)] ∧
     P.load_bookings
      (some (("bad|line".data ++ ['\n']) ++ (P.encodeBooking (⟨"BK20250301120000".data, "alice".data, "Ancient Worlds".data, "2025-03-01".data, "10:00".data, "2".data, "Guided".data, "2025-02-28".data, "Confirmed".data⟩ : P.Booking) ++ ['\n']))) =
        [(⟨"BK20250301120000".data, "alice".data, "Ancient Worlds".data, "2025-03-01".data, "10:00".data, "2".data, "Guided".data, "2025-02-28".data, "Confirmed".data⟩ : P.Booking)] ∧
     P.load_bookings_prints
      (some ((P.encodeBooking (⟨"BK20250301120000".data, "alice".data, "Ancient Worlds".data, "2025-03-01".data, "10:00".data, "2".data, "Guided".data, "2025-02-28".data, "Confirmed".data⟩ : P.Booking) ++ ['\n']) ++ ("bad|line".data ++ ['\n']))) =
        []) ∧
    (A.load_user_bookings "alice".data
      (some ((A.dumps (A.toJson (⟨"BK20250301120000".data, "alice".data, "Ancient Worlds".data, "Cairo".data, "EG".data, "History".data, "2025-03-01".data, "10:00".data, 2, "Guided".data, "Alice A".data, "a@b.c".data, "123".data, "".data, "2025-03-01 12:00:00".data⟩ : A.Booking)) ++ ['\n']) ++ ("not json".data ++ ['\n']))) =
        [A.toJson (⟨"BK20250301120000".data, "alice".data, "Ancient Worlds".data, "Cairo".data, "EG".data, "History".data, "2025-03-01".data, "10:00".data, 2, "Guided".data, "Alice A".data, "a@b.c".data, "123".data, "".data, "2025-03-01 12:00:00".data⟩ : A.Booking)] ∧
     A.load_user_bookings "alice".data
      (some (("not json".data ++ ['\n']) ++ (A.dumps (A.toJson (⟨"BK20250301120000".data, "alice".data, "Ancient Worlds".data, "Cairo".data, "EG".data, "History".data, "2025-03-01".data, "10:00".data, 2, "Guided".data, "Alice A".data, "a@b.c".data, "123".data, "".data, "2025-03-01 12:00:00".data⟩ : A.Booking)) ++ ['\n']))) =
        [A.toJson (⟨"BK20250301120000".data, "alice".data, "Ancient Worlds".data, "Cairo".data, "EG".data, "History".data, "2025-03-01".data, "10:00".data, 2, "Guided".data, "Alice A".data, "a@b.c".data, "123".data, "".data, "2025-03-01 12:00:00".data⟩ : A.Booking)] ∧
     A.load_user_bookings_prints
      (some ((A.dumps (A.toJson (⟨"BK20250301120000".data, "alice".data, "Ancient Worlds".data, "Cairo".data, "EG".data, "History".data, "2025-03-01".data, "10:00".data, 2, "Guided".data, "Alice A".data, "a@b.c".data, "123".data, "".data, "2025-03-01 12:00:00".data⟩ : A.Booking)) ++ ['\n']) ++ ("not json".data ++ ['\n']))) =
        []) :=
  ⟨⟨(claim_C4.1 (⟨"BK20250301120000".data, "alice".data, "Ancient Worlds".data, "2025-03-01".data, "10:00".data, "2".data, "Guided".data, "2025-02-28".data, "Confirmed".data⟩ : P.Booking) "bad|line".data (by decide) (by decide) (by decide)).1,
    (claim_C4.1 (⟨"BK20250301120000".data, "alice".data, "Ancient Worlds".data, "2025-03-01".data, "10:00".data, "2".data, "Guided".data, "2025-02-28".data, "Confirmed".data⟩ : P.Booking) "bad|line".data (by decide) (by decide) (by decide)).2.1,
    (claim_C4.1 (⟨"BK20250301120000".data, "alice".data, "Ancient Worlds".data, "2025-03-01".data, "10:00".data, "2".data, "Guided".data, "2025-02-28".data, "Confirmed".data⟩ : P.Booking) "bad|line".data (by decide) (by decide) (by decide)).2.2.1⟩,
   ⟨(claim_C4.2 (⟨"BK20250301120000".data, "alice".data, "Ancient Worlds".data, "Cairo".data, "EG".data, "History".data, "2025-03-01".data, "10:00".data, 2, "Guided".data, "Alice A".data, "a@b.c".data, "123".data, "".data, "2025-03-01 12:00:00".data⟩ : A.Booking) "not json".data rfl (by decide)).1,
    (claim_C4.2 (⟨"BK20250301120000".data, "alice".data, "Ancient Worlds".data, "Cairo".data, "EG".data, "History".data, "2025-03-01".data, "10:00".data, 2, "Guided".data, "Alice A".data, "a@b.c".data, "123".data, "".data, "2025-03-01 12:00:00".data⟩ : A.Booking) "not json".data rfl (by decide)).2.1,
    (claim_C4.2 (⟨"BK20250301120000".data, "alice".data, "Ancient Worlds".data, "Cairo".data, "EG".data, "History".data, "2025-03-01".data, "10:00".data, 2, "Guided".data, "Alice A".data, "a@b.c".data, "123".data, "".data, "2025-03-01 12:00:00".data⟩ : A.Booking) "not json".data rfl (by decide)).2.2.1⟩⟩

/-- C4 counterexample: this pipe-variant store holds a malformed line
(two fields instead of nine), the scan returns exactly the well-formed
record, yet the loop prints nothing at all, against the claimed warning;
the loop body of both booking loaders holds no print call. -/
theorem claim_C4_counterexample :
    P.load_bookings
      (some ((P.encodeBooking (⟨"BK2".data, "alice".data, "Louvre".data, "2025-04-01".data, "11:00".data, "3".data, "Self".data, "2025-03-28".data, "Confirmed".data⟩ : P.Booking) ++ ['\n']) ++ ("x|y".data ++ ['\n']))) =
        [(⟨"BK2".data, "alice".data, "Louvre".data, "2025-04-01".data, "11:00".data, "3".data, "Self".data, "2025-03-28".data, "Confirmed".data⟩ : P.Booking)] ∧
    P.parseBookingLine "x|y".data = none ∧
    P.load_bookings_prints
      (some ((P.encodeBooking (⟨"BK2".data, "alice".data, "Louvre".data, "2025-04-01".data, "11:00".data, "3".data, "Self".data, "2025-03-28".data, "Confirmed".data⟩ : P.Booking) ++ ['\n']) ++ ("x|y".data ++ ['\n']))) = [] := by
  refine ⟨?_, ?_, ?_⟩
  · decide
  · decide
  · decide

/-- C5: every loader of either variant maps a missing store file to the
empty observation, raising nothing. -/
theorem claim_C5 :
    P.load_users none = ([], []) ∧ P.load_bookings none = [] ∧
    A.load_users none = [] ∧ (∀ u, A.load_user_bookings u none = []) :=
  ⟨rfl, rfl, rfl, fun _ => rfl⟩

/-- C6: a scan of either variant walks the file lines first to last, so
the matches come back in file order, which is insertion order from the
empty store. -/
theorem claim_C6 :
    (∀ file, P.load_bookings file =
      (linesOf (contentOf file)).filterMap P.parseBookingLine) ∧
    (∀ (u content : List Char),
      A.load_user_bookings u (some content) =
        A.scanBookingLines u (linesOf content)) ∧
    (∀ bs : List P.Booking, (∀ b ∈ bs, P.CleanBooking b) →
      P.load_bookings (P.save_all none bs) = bs) ∧
    (∀ (u : List Char) (bs : List A.Booking),
      A.load_user_bookings u (A.save_all none bs) =
        (bs.filter fun b => b.username = u).map A.toJson) := by
  refine ⟨P.load_bookings_eq, fun u content => rfl, ?_, ?_⟩
  · intro bs hb
    have h := P.load_bookings_save_all none bs storeOk_nil hb
    simpa using h
  · intro u bs
    have h := A.load_user_bookings_save_all u bs none A.scanSafe_nil
    simpa using h

/-- C6 witness: two clean bookings saved in order come back in that
order. -/
theorem claim_C6_witness :
    P.load_bookings (P.save_all none [(⟨"BK20250301120000".data, "alice".data, "Ancient Worlds".data, "2025-03-01".data, "10:00".data, "2".data, "Guided".data, "2025-02-28".data, "Confirmed".data⟩ : P.Booking), (⟨"BK2".data, "alice".data, "Louvre".data, "2025-04-01".data, "11:00".data, "3".data, "Self".data, "2025-03-28".data, "Confirmed".data⟩ : P.Booking)]) = [(⟨"BK20250301120000".data, "alice".data, "Ancient Worlds".data, "2025-03-01".data, "10:00".data, "2".data, "Guided".data, "2025-02-28".data, "Confirmed".data⟩ : P.Booking), (⟨"BK2".data, "alice".data, "Louvre".data, "2025-04-01".data, "11:00".data, "3".data, "Self".data, "2025-03-28".data, "Confirmed".data⟩ : P.Booking)] :=
  claim_C6.2.2.1 [(⟨"BK20250301120000".data, "alice".data, "Ancient Worlds".data, "2025-03-01".data, "10:00".data, "2".data, "Guided".data, "2025-02-28".data, "Confirmed".data⟩ : P.Booking), (⟨"BK2".data, "alice".data, "Louvre".data, "2025-04-01".data, "11:00".data, "3".data, "Self".data, "2025-03-28".data, "Confirmed".data⟩ : P.Booking)] (by decide)

/-- C7: each read helper of either variant returns the same observation
on a repeated call and leaves the store state exactly as it was. -/
theorem claim_C7 :
    (∀ s : Store, (P.readBookings s).2 = s ∧
      (P.readBookings ((P.readBookings s).2)).1 = (P.readBookings s).1) ∧
    (∀ s : Store, (P.readUsers s).2 = s ∧
      (P.readUsers ((P.readUsers s).2)).1 = (P.readUsers s).1) ∧
    (∀ (u : List Char) (s : Store), (A.readBookings u s).2 = s ∧
      (A.readBookings u ((A.readBookings u s).2)).1 = (A.readBookings u s).1) ∧
    (∀ s : Store, (A.readUsers s).2 = s ∧
      (A.readUsers ((A.readUsers s).2)).1 = (A.readUsers s).1) :=
  ⟨fun _ => ⟨rfl, rfl⟩, fun _ => ⟨rfl, rfl⟩, fun _ _ => ⟨rfl, rfl⟩,
   fun _ => ⟨rfl, rfl⟩⟩

/-- C8: the booking identifier both variants generate is BK followed by
the timestamp rendered %Y%m%d%H%M%S, a fixed-width all-digit string, so
bookings created at distinct in-range timestamps receive distinct
identifiers. -/
theorem claim_C8 :
    (∀ t : DT, booking_id t = 'B' :: 'K' :: strftimeYmdHMS t ∧
      (booking_id t).length = 16 ∧
      (∀ x ∈ strftimeYmdHMS t, '0' ≤ x ∧ x ≤ '9')) ∧
    (∀ t1 t2 : DT, validDT t1 → validDT t2 → ¬t1 = t2 →
      ¬booking_id t1 = booking_id t2) := by
  constructor
  · intro t
    exact ⟨rfl, booking_id_length t, strftime_digits t⟩
  · intro t1 t2 h1 h2 hne he
    exact hne (booking_id_inj t1 t2 h1 h2 he)

/-- C8 witness: two timestamps one second apart give distinct
identifiers. -/
theorem claim_C8_witness :
    ¬booking_id ⟨2025, 3, 1, 12, 0, 0⟩ = booking_id ⟨2025, 3, 1, 12, 0, 1⟩ :=
  claim_C8.2 ⟨2025, 3, 1, 12, 0, 0⟩ ⟨2025, 3, 1, 12, 0, 1⟩
    (by decide) (by decide) (by decide)

/-- C9 (amended): along every accounts-file history built by the
registration branch alone from the missing file, with usernames free of
the delimiter, line terminators and leading whitespace, the stored
records carry pairwise distinct usernames: the pre-check scan rejects a
username already present. -/
theorem claim_C9 :
    (∀ file, P.Reached file → ((P.userRecords file).map Prod.fst).Nodup) ∧
    (∀ file, A.Reached file → ((A.userRecords file).map Prod.fst).Nodup) :=
  ⟨fun file h => (P.reached_invariant file h).2,
   fun file h => (A.reached_invariant_app file h).2⟩

/-- C9 witness: one real registration in each variant, reached from the
empty store, leaves the username list duplicate-free. -/
theorem claim_C9_witness :
    ((P.userRecords (P.register none "bob".data "b@c.d".data "secret1".data
        "secret1".data "20250301120000".data).1).map Prod.fst).Nodup ∧
    ((A.userRecords (A.signup none "bob".data "secret1".data
        "secret1".data).1).map Prod.fst).Nodup :=
  ⟨claim_C9.1 _ (P.Reached.step none "bob".data "b@c.d".data "secret1".data
      "secret1".data "20250301120000".data P.Reached.init (by decide)),
   claim_C9.2 _ (A.Reached.step none "bob".data "secret1".data "secret1".data
      A.Reached.init (by decide))⟩

/-- C9 counterexample: registering bob and then a bob with a leading
space both succeed, since the pre-check compares raw input while the
loader strips each line; the resulting store carries two records for the
username bob, against the claimed at-most-one invariant for states
reachable through registration. -/
theorem claim_C9_counterexample :
    (A.signup none "bob".data "secret1".data "secret1".data).2 = true ∧
    (A.signup (A.signup none "bob".data "secret1".data "secret1".data).1
      " bob".data "secret1".data "secret1".data).2 = true ∧
    ¬((A.userRecords
        (A.signup (A.signup none "bob".data "secret1".data "secret1".data).1
          " bob".data "secret1".data "secret1".data).1).map Prod.fst).Nodup := by
  refine ⟨?_, ?_, ?_⟩
  · decide
  · decide
  · decide

/-- C10: when the accounts file repeats a username, the dict either
load_users builds binds it to the record of the last such line: the
lookup equals a reverse search through the file records, so credential
verification checks the most recently appended credential. -/
theorem claim_C10 :
    (∀ (file : Option (List Char)) (u : List Char),
      dictFind? (P.load_users file).1 u =
        ((P.userRecords file).reverse.find? (fun p => p.1 == u)).map Prod.snd) ∧
    (∀ (file : Option (List Char)) (u : List Char),
      dictFind? (A.load_users file) u =
        ((A.userRecords file).reverse.find? (fun p => p.1 == u)).map Prod.snd) :=
  ⟨P.dictFind_load_users, A.dictFind_load_users_app⟩
